import Mathlib

/-!
Shallow embedding of the batch loan-matching core of the UniCow/DebtHook operator
(`src/operator/matching.ts`), together with proofs checking the natural-language
specification of the matching pipeline against the code.

Modelling conventions:
* TypeScript `bigint` is `Int`; `number` task ids are `Nat`; addresses are `String`.
* TS `bigint` division truncates toward zero, which is `Int.tdiv` here.
* `js-big-decimal` values produced by `divide(_, 4, RoundingModes.FLOOR)` are
  represented by their fixed-point numerator at scale `10^4` (an `Int`); `compareTo`
  on two such values agrees with `Int` comparison of the numerators.
* JS `Set` membership on `bigint.toString()` keys is modelled by list membership on
  the underlying integers (`toString` is injective on bigints, and only membership
  and first-occurrence order are observable in this code).
* The per-order diagnostic `analysis` map of `computeLoanTransfers` is not modelled:
  it is informational text only and no verified property concerns it.
-/

/-- Loan order; `LoanTask` of the operator sources. Fields the matching core never
reads (`orderId`, `orderData`, `taskCreatedBlock`, `collateralRequired`, the mutable
result fields) are omitted. -/
structure LoanTask where
  isLender : Bool
  principalAmount : Int
  interestRateBips : Int
  maturityTimestamp : Int
  sender : String
  taskId : Nat
deriving DecidableEq, Repr

/-- Feasibility classification, `LoanFeasibility` of the operator sources. -/
inductive LoanFeasibility where
  | NONE
  | FULL_MATCH
  | PARTIAL_LENDER
  | PARTIAL_BORROWER
  | PARTIAL_BOTH
  | NO_RATE_OVERLAP
  | MATURITY_MISMATCH
deriving DecidableEq, Repr

/-- One evaluated matching group, `LoanMatching` of the operator sources. -/
structure LoanMatching where
  loanTasks : List LoanTask
  feasibility : LoanFeasibility
  totalLenderAmount : Int
  totalBorrowerAmount : Int
  matchedAmount : Int
  effectiveRate : Int
  maturityTimestamp : Int
deriving DecidableEq, Repr

/-- Aggregate result of evaluating one partition, `LoanMatchingResult` of the
operator sources.  The three `bigDecimal` fields are scale-`10^4` fixed-point
numerators. -/
structure LoanMatchingResult where
  matchings : List LoanMatching
  averageLenderRate : Int
  averageBorrowerRate : Int
  totalLenderAmount : Int
  totalBorrowerAmount : Int
  totalMatchedAmount : Int
  unmatchedLenderAmount : Int
  unmatchedBorrowerAmount : Int
  feasible : Bool
  feasibilityType : LoanFeasibility
  rateSpread : Int
  matchingEfficiency : Int
deriving DecidableEq, Repr

/-- One settlement instruction, `LoanTransfer` of `src/operator/matching.ts`. -/
structure LoanTransfer where
  lender : String
  borrower : String
  amount : Int
  rate : Int
  maturityTimestamp : Int
deriving DecidableEq, Repr

namespace Mathb

/-- Modelled from the spec: `Mathb.min` of the operator's `math` helper module (the
module itself is not among the provided sources; the spec's evaluator description
"matchedAmount = min(totalLenderAmount, totalBorrowerAmount)" fixes its meaning as
the minimum of two arbitrary-precision integers). -/
def min (a b : Int) : Int := Min.min a b

/-- Modelled from the spec: `Mathb.max` of the operator's `math` helper module,
the maximum of two arbitrary-precision integers. -/
def max (a b : Int) : Int := Max.max a b

end Mathb

/-- `Number.MAX_SAFE_INTEGER`, the seed of the evaluator's running minimum lender
rate. -/
def maxSafeInteger : Int := 9007199254740991

/-- `js-big-decimal` `divide(num, den, 4, RoundingModes.FLOOR)` on integer operands,
as the scale-`10^4` fixed-point numerator of the quotient (FLOOR rounds toward
negative infinity). -/
def bigDecimalDiv4 (num den : Int) : Int := Int.fdiv (num * 10000) den

/-- The lender orders of a group (`matching.filter(task => task.isLender)`). -/
def lendersOf (g : List LoanTask) : List LoanTask := g.filter (·.isLender)

/-- The borrower orders of a group (`matching.filter(task => !task.isLender)`). -/
def borrowersOf (g : List LoanTask) : List LoanTask := g.filter (fun t => !t.isLender)

/-- Sum of the principal amounts of a list of orders. -/
def principalSum (ts : List LoanTask) : Int := (ts.map (·.principalAmount)).sum

/-- `findCommonMaturities` of `src/operator/matching.ts`: the maturity timestamps
occurring on both sides, deduplicated (the JS `Set` keeps one copy per value) and
sorted ascending (`sort((a, b) => Number(a - b))` on distinct bigints).  Because the
final sort canonicalises the order of the deduplicated distinct values, which copy
the deduplication keeps is unobservable; `List.dedup` is used. -/
def findCommonMaturities (lenders borrowers : List LoanTask) : List Int :=
  (((lenders.map (·.maturityTimestamp)).dedup).filter
      (fun m => (borrowers.map (·.maturityTimestamp)).contains m)).insertionSort (· ≤ ·)

/-- The evaluator's running `minLenderRate`: folded with `Mathb.min` from the
`MAX_SAFE_INTEGER` seed over the group's lender rates. -/
def minLenderRateCode (g : List LoanTask) : Int :=
  ((lendersOf g).map (·.interestRateBips)).foldl Mathb.min maxSafeInteger

/-- The evaluator's running `maxBorrowerRate`: folded with `Mathb.max` from the
seed `0` over the group's borrower rates. -/
def maxBorrowerRateCode (g : List LoanTask) : Int :=
  ((borrowersOf g).map (·.interestRateBips)).foldl Mathb.max 0

/-- The evaluator's multi-order branch of the loop body of
`computeLoanMatchingResult` (also reached for an empty group, where the rate check
fails because the minimum lender rate stays at its `MAX_SAFE_INTEGER` seed).  The
loop's local accumulators are written through the named helper functions. -/
def evalMulti (g : List LoanTask) : LoanMatching :=
  if minLenderRateCode g > maxBorrowerRateCode g then
    { loanTasks := g, feasibility := .NO_RATE_OVERLAP
      totalLenderAmount := principalSum (lendersOf g)
      totalBorrowerAmount := principalSum (borrowersOf g)
      matchedAmount := 0, effectiveRate := 0, maturityTimestamp := 0 }
  else
    match findCommonMaturities (lendersOf g) (borrowersOf g) with
    | [] =>
      { loanTasks := g, feasibility := .MATURITY_MISMATCH
        totalLenderAmount := principalSum (lendersOf g)
        totalBorrowerAmount := principalSum (borrowersOf g)
        matchedAmount := 0, effectiveRate := 0, maturityTimestamp := 0 }
    | m :: _ =>
      { loanTasks := g
        feasibility :=
          if principalSum (lendersOf g) = principalSum (borrowersOf g) then .FULL_MATCH
          else if principalSum (lendersOf g) > principalSum (borrowersOf g) then .PARTIAL_LENDER
          else .PARTIAL_BORROWER
        totalLenderAmount := principalSum (lendersOf g)
        totalBorrowerAmount := principalSum (borrowersOf g)
        matchedAmount := Mathb.min (principalSum (lendersOf g)) (principalSum (borrowersOf g))
        effectiveRate := Int.tdiv (minLenderRateCode g + maxBorrowerRateCode g) 2
        maturityTimestamp := m }

/-- The per-group record built by the evaluator loop body of
`computeLoanMatchingResult` (the record's fields depend only on the group):
a singleton passes through unmatched, any other group takes the multi-order path. -/
def evalGroup : List LoanTask → LoanMatching
  | [t] =>
    { loanTasks := [t]
      feasibility := .NONE
      totalLenderAmount := if t.isLender then t.principalAmount else 0
      totalBorrowerAmount := if t.isLender then 0 else t.principalAmount
      matchedAmount := 0
      effectiveRate := 0
      maturityTimestamp := t.maturityTimestamp }
  | g => evalMulti g

/-- Whether a group record carries a successful match (`FULL_MATCH`,
`PARTIAL_LENDER` or `PARTIAL_BORROWER`); exactly these group records were produced
past both evaluator checks, so exactly they contribute to the aggregate totals. -/
def LoanFeasibility.isMatched : LoanFeasibility → Bool
  | .FULL_MATCH | .PARTIAL_LENDER | .PARTIAL_BORROWER => true
  | _ => false

/-- The feasibility values at which `computeLoanTransfers` skips a group. -/
def LoanFeasibility.isSkippedByTransfers : LoanFeasibility → Bool
  | .NONE | .NO_RATE_OVERLAP | .MATURITY_MISMATCH => true
  | _ => false

/-- A group's contribution to the aggregate `totalLenderAmount`: singleton groups
always contribute (the `matching.length === 1` branch adds the principal directly);
multi-order groups contribute only after passing both checks (the two `continue`
statements skip the `totalLenderAmount += ...` update). -/
def contribLender (g : List LoanTask) : Int :=
  if g.length = 1 ∨ (evalGroup g).feasibility.isMatched then (evalGroup g).totalLenderAmount
  else 0

/-- A group's contribution to the aggregate `totalBorrowerAmount`; see
`contribLender`. -/
def contribBorrower (g : List LoanTask) : Int :=
  if g.length = 1 ∨ (evalGroup g).feasibility.isMatched then (evalGroup g).totalBorrowerAmount
  else 0

/-- `determineFeasibilityType` of `src/operator/matching.ts`. -/
def determineFeasibilityType (matchings : List LoanMatching) : LoanFeasibility :=
  if !(matchings.any (fun m => m.feasibility.isMatched)) then .NONE
  else if matchings.all
      (fun m => m.feasibility == .FULL_MATCH || m.feasibility == .NONE) then .FULL_MATCH
  else
    let hasPartialLender := matchings.any (fun m => m.feasibility == .PARTIAL_LENDER)
    let hasPartialBorrower := matchings.any (fun m => m.feasibility == .PARTIAL_BORROWER)
    if hasPartialLender && hasPartialBorrower then .PARTIAL_BOTH
    else if hasPartialLender then .PARTIAL_LENDER
    else .PARTIAL_BORROWER

/-- `computeLoanMatchingResult` of `src/operator/matching.ts`.  The imperative
accumulators are rendered as sums of per-group contributions (addition reassociates
freely); group records have `matchedAmount = 0` and `effectiveRate = 0` unless
matched, so summing them over all groups equals the code's conditional updates. -/
def computeLoanMatchingResult (combination : List (List LoanTask)) : LoanMatchingResult :=
  let matchings := combination.map evalGroup
  let totalLenderAmount := (combination.map contribLender).sum
  let totalBorrowerAmount := (combination.map contribBorrower).sum
  let totalMatchedAmount := (matchings.map (·.matchedAmount)).sum
  let weightedRate := (matchings.map (fun m => m.effectiveRate * m.matchedAmount)).sum
  let totalAmount := totalLenderAmount + totalBorrowerAmount
  { matchings := matchings
    averageLenderRate :=
      if totalMatchedAmount > 0 then bigDecimalDiv4 weightedRate totalMatchedAmount else 0
    averageBorrowerRate :=
      if totalMatchedAmount > 0 then bigDecimalDiv4 weightedRate totalMatchedAmount else 0
    totalLenderAmount := totalLenderAmount
    totalBorrowerAmount := totalBorrowerAmount
    totalMatchedAmount := totalMatchedAmount
    unmatchedLenderAmount := totalLenderAmount - totalMatchedAmount
    unmatchedBorrowerAmount := totalBorrowerAmount - totalMatchedAmount
    feasible := decide (totalMatchedAmount > 0)
    feasibilityType := determineFeasibilityType matchings
    rateSpread := 0
    matchingEfficiency :=
      if totalAmount > 0 then bigDecimalDiv4 (totalMatchedAmount * 2) totalAmount else 0 }

/-- The comparator step of `computeBestLoanResult`: whether challenger `result`
replaces the current `best` (strictly more matched volume; on a tie, strictly
better efficiency; on a further tie, strictly lower average borrower rate). -/
def beatsBest (result best : LoanMatchingResult) : Bool :=
  if result.totalMatchedAmount > best.totalMatchedAmount then true
  else if result.totalMatchedAmount = best.totalMatchedAmount then
    if result.matchingEfficiency > best.matchingEfficiency then true
    else if result.matchingEfficiency = best.matchingEfficiency then
      decide (result.averageBorrowerRate < best.averageBorrowerRate)
    else false
  else false

/-- The selection loop of `computeBestLoanResult`: `bestResult` starts as `null`
(`none`), infeasible candidates are skipped, and a feasible challenger replaces the
incumbent exactly when `beatsBest` holds. -/
def bestLoop : Option LoanMatchingResult → List LoanMatchingResult → Option LoanMatchingResult
  | b, [] => b
  | b, r :: rest =>
    if !r.feasible then bestLoop b rest
    else
      match b with
      | none => bestLoop (some r) rest
      | some best => if beatsBest r best then bestLoop (some r) rest else bestLoop (some best) rest

/-- `computeBestLoanResult` of `src/operator/matching.ts`.  The final statement
`return bestResult || possibleResults[0]` is modelled with `Option`: indexing `[0]`
on an empty JS array yields `undefined`, i.e. no result. -/
def computeBestLoanResult (possibleResults : List LoanMatchingResult) : Option LoanMatchingResult :=
  match bestLoop none possibleResults with
  | some b => some b
  | none => possibleResults.head?

/-- A lender's proportional share inside a group, recomputed from scratch at each
use site of `computeLoanTransfers` (TS bigint division truncates toward zero). -/
def lenderShareOf (m : LoanMatching) (l : LoanTask) : Int :=
  if m.totalLenderAmount > 0 then Int.tdiv (l.principalAmount * m.matchedAmount) m.totalLenderAmount
  else 0

/-- A borrower's proportional share inside a group. -/
def borrowerShareOf (m : LoanMatching) (b : LoanTask) : Int :=
  if m.totalBorrowerAmount > 0 then Int.tdiv (b.principalAmount * m.matchedAmount) m.totalBorrowerAmount
  else 0

/-- The inner lender loop of `computeLoanTransfers` for one borrower: walk the
lenders, break when the borrower's remainder reaches zero, transfer
`min(remainder, lenderShare)` when positive, and decrement the remainder.  Returns
the emitted transfers and the final remainder. -/
def allocToLenders (m : LoanMatching) (borrower : LoanTask) :
    List LoanTask → Int → List LoanTransfer × Int
  | [], rem => ([], rem)
  | l :: ls, rem =>
    if rem = 0 then ([], rem)
    else if Mathb.min rem (lenderShareOf m l) > 0 then
      ({ lender := l.sender, borrower := borrower.sender
         amount := Mathb.min rem (lenderShareOf m l)
         rate := m.effectiveRate, maturityTimestamp := m.maturityTimestamp }
          :: (allocToLenders m borrower ls (rem - Mathb.min rem (lenderShareOf m l))).1,
        (allocToLenders m borrower ls (rem - Mathb.min rem (lenderShareOf m l))).2)
    else allocToLenders m borrower ls rem

/-- The transfers one group contributes in `computeLoanTransfers`: skipped groups
contribute none; otherwise each borrower in order draws its share from the lenders. -/
def groupTransfers (m : LoanMatching) : List LoanTransfer :=
  if m.feasibility.isSkippedByTransfers then []
  else
    (borrowersOf m.loanTasks).flatMap
      (fun b => (allocToLenders m b (lendersOf m.loanTasks) (borrowerShareOf m b)).1)

/-- `computeLoanTransfers` of `src/operator/matching.ts` (transfer list only; the
textual `analysis` record is not modelled). -/
def computeLoanTransfers (result : LoanMatchingResult) : List LoanTransfer :=
  result.matchings.flatMap groupTransfers

/-- The deduplication key of `removeDuplicates`: per group, its task ids as a
multiset (the JS code string-sorts each group's id array and `JSON.stringify`s the
list of arrays; two combinations get equal strings iff their group-order lists of
per-group id multisets are equal). -/
def comboKey (c : List (List LoanTask)) : List (Multiset Nat) :=
  c.map (fun g => (g.map (·.taskId) : Multiset Nat))

/-- The `Set`-backed filter of `removeDuplicates`: keep a combination iff its key
has not been seen before. -/
def removeDuplicatesGo (seen : List (List (Multiset Nat))) :
    List (List (List LoanTask)) → List (List (List LoanTask))
  | [] => []
  | c :: rest =>
    if comboKey c ∈ seen then removeDuplicatesGo seen rest
    else c :: removeDuplicatesGo (comboKey c :: seen) rest

/-- `removeDuplicates` of `src/operator/matching.ts`. -/
def removeDuplicates (combinations : List (List (List LoanTask))) :
    List (List (List LoanTask)) :=
  removeDuplicatesGo [] combinations

/-- The "combine the first task with group `i`" family of pushes in
`generateLoanTaskCombinations`: one new combination per insertion position, in
position order (the `Array.isArray` guard in the source is vacuous: groups are
always arrays). -/
def insertFirstIntoGroups (t : LoanTask) : List (List LoanTask) → List (List (List LoanTask))
  | [] => []
  | g :: gs => ((t :: g) :: gs) :: (insertFirstIntoGroups t gs).map (fun c => g :: c)

/-- `generateLoanTaskCombinations` of `src/operator/matching.ts`: the raw push
order is `[[first], rest]`, then `[first]` prepended to every sub-combination, then
every insertion of `first` into every group of every sub-combination; duplicates
are then removed by key. -/
def generateLoanTaskCombinations : List LoanTask → List (List (List LoanTask))
  | [] => []
  | [t] => [[[t]]]
  | t :: rest =>
    let subCombinations := generateLoanTaskCombinations rest
    removeDuplicates
      ([[t], rest] ::
        (subCombinations.map (fun sc => [t] :: sc) ++
          subCombinations.flatMap (insertFirstIntoGroups t)))

/-- `isLoanCombinationPossible` of `src/operator/matching.ts`.  The JS rate
comparison coerces rates through `Number` (exact below `2^53`); it is modelled as
exact integer comparison.  The maturity check asks whether some lender maturity
occurs among the borrower maturities. -/
def isLoanCombinationPossible (combination : List (List LoanTask)) : Bool :=
  combination.all (fun matching =>
    if matching.length = 1 then true
    else
      match (lendersOf matching).map (·.interestRateBips),
            (borrowersOf matching).map (·.interestRateBips) with
      | [], _ => false
      | _, [] => false
      | lr :: lrs, br :: brs =>
        if lrs.foldl Mathb.min lr > brs.foldl Mathb.max br then false
        else
          ((lendersOf matching).map (·.maturityTimestamp)).any
            (fun mt => ((borrowersOf matching).map (·.maturityTimestamp)).contains mt))

/-! ### Spec-side definitions (used to state claims in the spec's words) -/

/-- From the spec's words (claim C7): the minimum interest rate over the group's
lenders (given as `0` for a lender-free group, which the claim does not concern). -/
def minLenderRateSpec (g : List LoanTask) : Int :=
  match (lendersOf g).map (·.interestRateBips) with
  | [] => 0
  | r :: rs => rs.foldl Min.min r

/-- From the spec's words (claim C7): the maximum interest rate over the group's
borrowers (given as `0` for a borrower-free group, which the claim does not
concern). -/
def maxBorrowerRateSpec (g : List LoanTask) : Int :=
  match (borrowersOf g).map (·.interestRateBips) with
  | [] => 0
  | r :: rs => rs.foldl Max.max r

/-- From the spec's words (claim C6): candidate `a` strictly precedes candidate `b`
under the selector's ordered criteria — more matched volume; on a tie, higher
matching efficiency; on a further tie, lower average (borrower) rate. -/
def criteriaBetter (a b : LoanMatchingResult) : Prop :=
  b.totalMatchedAmount < a.totalMatchedAmount ∨
    (a.totalMatchedAmount = b.totalMatchedAmount ∧
      (b.matchingEfficiency < a.matchingEfficiency ∨
        (a.matchingEfficiency = b.matchingEfficiency ∧
          a.averageBorrowerRate < b.averageBorrowerRate)))

/-- From the spec's words (claim C6): all three criteria are exactly equal. -/
def criteriaTied (a b : LoanMatchingResult) : Prop :=
  a.totalMatchedAmount = b.totalMatchedAmount ∧
    a.matchingEfficiency = b.matchingEfficiency ∧
    a.averageBorrowerRate = b.averageBorrowerRate

/-- One comparator step of the selection loop: keep the incumbent unless the
challenger strictly beats it (proof-side reformulation of the loop body of
`computeBestLoanResult`, used to reason about `bestLoop` on feasible inputs). -/
def pickBetter (b r : LoanMatchingResult) : LoanMatchingResult :=
  if beatsBest r b then r else b

/-- From the spec's words (claim C3): the total number of lender–borrower pairings
over the groups the transfer calculator processes (each processed group contributes
`#lenders × #borrowers`; skipped groups contribute none). -/
def transferPairings (r : LoanMatchingResult) : Int :=
  (r.matchings.map (fun m => if m.feasibility.isSkippedByTransfers then 0
      else ((lendersOf m.loanTasks).length : Int) * ((borrowersOf m.loanTasks).length : Int))).sum

/-- From the spec's words (claim C5): the set partitions of a finite set `s` of
order ids — finsets of non-empty, pairwise-disjoint blocks covering `s` exactly. -/
def idPartitions (s : Finset Nat) : Finset (Finset (Finset Nat)) :=
  s.powerset.powerset.filter (fun P =>
    P.biUnion id = s ∧ (∀ b ∈ P, b.Nonempty) ∧
      ∀ b₁ ∈ P, ∀ b₂ ∈ P, b₁ ≠ b₂ → Disjoint b₁ b₂)

/-- From the spec's words (claim C5): the n-th Bell number — the number of set
partitions of an n-element set (here the canonical n-element set `range n`). -/
def bell (n : Nat) : Nat := (idPartitions (Finset.range n)).card

/-- A group's set of task ids. -/
def idBlock (g : List LoanTask) : Finset Nat := (g.map (·.taskId)).toFinset

/-- The set partition a combination represents: the set of its groups' id sets. -/
def comboPartition (c : List (List LoanTask)) : Finset (Finset Nat) :=
  (c.map idBlock).toFinset

/-- The raw (pre-deduplication) push list of one `generateLoanTaskCombinations`
recursion step on `t :: rest`: the `[[first], restTasks]` push, then the
separate-`[first]` pushes, then the insertion pushes. -/
def rawStep (t : LoanTask) (rest : List LoanTask)
    (subs : List (List (List LoanTask))) : List (List (List LoanTask)) :=
  [[t], rest] :: (subs.map (fun sc => [t] :: sc) ++ subs.flatMap (insertFirstIntoGroups t))

/-- From the spec's words (claim C1): the Best-Result Selector as the spec
describes it — it FAILS with the `EmptyResultSet` error when invoked on an empty
candidate list (spec section 7 lists `EmptyResultSet` as a fatal error), and
otherwise returns the result the selection loop picks.  To be compared with the
code's `computeBestLoanResult`, which has no error channel at all: on an empty
list it returns `undefined` through its normal `return` statement. -/
def computeBestLoanResultSpec (possibleResults : List LoanMatchingResult) :
    Except String LoanMatchingResult :=
  match computeBestLoanResult possibleResults with
  | some b => Except.ok b
  | none => Except.error "EmptyResultSet"

/-! ### Unfolding lemmas -/

theorem evalGroup_cons_cons (a b : LoanTask) (l : List LoanTask) :
    evalGroup (a :: b :: l) = evalMulti (a :: b :: l) := rfl

theorem result_matchings (comb : List (List LoanTask)) :
    (computeLoanMatchingResult comb).matchings = comb.map evalGroup := rfl

theorem result_totalLender (comb : List (List LoanTask)) :
    (computeLoanMatchingResult comb).totalLenderAmount = (comb.map contribLender).sum := rfl

theorem result_totalBorrower (comb : List (List LoanTask)) :
    (computeLoanMatchingResult comb).totalBorrowerAmount = (comb.map contribBorrower).sum := rfl

theorem result_totalMatched (comb : List (List LoanTask)) :
    (computeLoanMatchingResult comb).totalMatchedAmount
      = ((comb.map evalGroup).map (·.matchedAmount)).sum := rfl

theorem result_unmatchedLender (comb : List (List LoanTask)) :
    (computeLoanMatchingResult comb).unmatchedLenderAmount
      = (comb.map contribLender).sum - ((comb.map evalGroup).map (·.matchedAmount)).sum := rfl

theorem result_unmatchedBorrower (comb : List (List LoanTask)) :
    (computeLoanMatchingResult comb).unmatchedBorrowerAmount
      = (comb.map contribBorrower).sum - ((comb.map evalGroup).map (·.matchedAmount)).sum := rfl

theorem result_feasible (comb : List (List LoanTask)) :
    (computeLoanMatchingResult comb).feasible
      = decide (((comb.map evalGroup).map (·.matchedAmount)).sum > 0) := rfl

/-! ### Claim C1 -/

/-- C1: counterexample — the claim says the selector "fails with EmptyResultSet"
on an empty candidate list, but the code has no error channel: on `[]` the loop
body never runs and `return bestResult || possibleResults[0]` returns `undefined`
through the normal return path (modelled `none`); it completes without failing.
The spec-described selector instead fails with the `EmptyResultSet` error, so the
two differ on the empty list. -/
theorem selector_empty_no_error_counterexample :
    computeBestLoanResult [] = none ∧
    computeBestLoanResultSpec [] = Except.error "EmptyResultSet" :=
  ⟨rfl, rfl⟩

/-- C1 (corrected): invoked on an empty candidate list, the best-result selector
never returns a RESULT — but it does not fail either: the JS code falls through
to `possibleResults[0]`, which is `undefined` (here `none`) for an empty array,
and silently hands that back; no `EmptyResultSet` error is raised and no error
construct exists in the selector. -/
theorem selector_empty_no_result : computeBestLoanResult [] = none := rfl

/-! ### Claim C9 -/

theorem bestLoop_none_of_all_infeasible :
    ∀ l : List LoanMatchingResult, (∀ r ∈ l, r.feasible = false) → bestLoop none l = none := by
  intro l
  induction l with
  | nil => intro _; rfl
  | cons r rest ih =>
    intro h
    have hr : r.feasible = false := h r (List.mem_cons_self r rest)
    have hrest : ∀ x ∈ rest, x.feasible = false := fun x hx => h x (List.mem_cons_of_mem r hx)
    simp only [bestLoop, hr, Bool.not_false, if_pos]
    exact ih hrest

/-- C9: called on a non-empty candidate list none of whose elements is feasible,
the selector does not fail: the loop never installs a best result, and the final
`bestResult || possibleResults[0]` returns the first input element unchanged. -/
theorem selector_all_infeasible_returns_first (r : LoanMatchingResult)
    (rest : List LoanMatchingResult) (h : ∀ x ∈ r :: rest, x.feasible = false) :
    computeBestLoanResult (r :: rest) = some r := by
  unfold computeBestLoanResult
  rw [bestLoop_none_of_all_infeasible (r :: rest) h]
  rfl

/-- Witness for C9 at a concrete input: the evaluator's result on the empty
partition is infeasible, and the selector returns it unchanged. -/
theorem selector_all_infeasible_returns_first_witness :
    computeBestLoanResult [computeLoanMatchingResult []] = some (computeLoanMatchingResult []) :=
  selector_all_infeasible_returns_first (computeLoanMatchingResult []) [] (by decide)

/-! ### Claim C2 -/

/-- C2: the transfer calculator does not track lender remainders across borrowers
(the code recomputes `lenderShare` from scratch inside every borrower iteration and
never decrements it).  Concretely, for the matched group with lenders of principal
10 ("L1") and 90 ("L2") and two borrowers of principal 100 each (equal maturity,
overlapping rates, matched amount 100), lender "L1" is debited 10 by each borrower
— 20 in total — although its share floor(10·100/100) is 10, which is also its whole
principal.  This contradicts both the claim and the code's own comment
"Distribute matched amount proportionally". -/
theorem transfers_overdraw_lender :
    (((computeLoanTransfers (computeLoanMatchingResult
        [[⟨true, 10, 500, 1000, "L1", 1⟩, ⟨true, 90, 500, 1000, "L2", 2⟩,
          ⟨false, 100, 600, 1000, "B1", 3⟩, ⟨false, 100, 600, 1000, "B2", 4⟩]])).filter
          (fun t => t.lender == "L1")).map (fun t => t.amount)).sum = 20 ∧
    lenderShareOf
        (evalGroup [⟨true, 10, 500, 1000, "L1", 1⟩, ⟨true, 90, 500, 1000, "L2", 2⟩,
          ⟨false, 100, 600, 1000, "B1", 3⟩, ⟨false, 100, 600, 1000, "B2", 4⟩])
        ⟨true, 10, 500, 1000, "L1", 1⟩ = 10 := by
  exact ⟨rfl, rfl⟩

/-! ### Fold lemmas for the evaluator's running min and max -/

theorem foldl_mathbMin_cons_of_le {seed r : Int} (rs : List Int) (h : r ≤ seed) :
    (r :: rs).foldl Mathb.min seed = rs.foldl Mathb.min r := by
  simp only [List.foldl_cons, Mathb.min, min_eq_right h]

theorem foldl_mathbMax_cons_of_le {seed r : Int} (rs : List Int) (h : seed ≤ r) :
    (r :: rs).foldl Mathb.max seed = rs.foldl Mathb.max r := by
  simp only [List.foldl_cons, Mathb.max, max_eq_right h]

theorem mathbMin_eq_min : Mathb.min = (Min.min : Int → Int → Int) := rfl

theorem mathbMax_eq_max : Mathb.max = (Max.max : Int → Int → Int) := rfl

theorem le_foldl_mathbMin {c : Int} :
    ∀ (l : List Int) (a : Int), c ≤ a → (∀ x ∈ l, c ≤ x) → c ≤ l.foldl Mathb.min a := by
  intro l
  induction l with
  | nil => exact fun a ha _ => ha
  | cons x xs ih =>
    intro a ha h
    have hx : c ≤ x := h x (List.mem_cons_self x xs)
    exact ih (Mathb.min a x) (le_min ha hx) (fun y hy => h y (List.mem_cons_of_mem x hy))

theorem le_foldl_mathbMax : ∀ (l : List Int) (a : Int), a ≤ l.foldl Mathb.max a := by
  intro l
  induction l with
  | nil => exact fun a => le_refl a
  | cons x xs ih =>
    intro a
    exact le_trans (le_max_left a x) (ih (Mathb.max a x))

/-! ### Common-maturity membership facts -/

theorem mem_findCommonMaturities {lenders borrowers : List LoanTask} {m : Int}
    (hm : m ∈ findCommonMaturities lenders borrowers) :
    m ∈ lenders.map (·.maturityTimestamp) ∧ m ∈ borrowers.map (·.maturityTimestamp) := by
  unfold findCommonMaturities at hm
  rw [List.mem_insertionSort] at hm
  have h := List.mem_filter.mp hm
  refine ⟨List.mem_dedup.mp h.1, ?_⟩
  simpa using h.2

theorem findCommonMaturities_ne_nil {lenders borrowers : List LoanTask} {mt : Int}
    (h1 : mt ∈ lenders.map (·.maturityTimestamp))
    (h2 : mt ∈ borrowers.map (·.maturityTimestamp)) :
    findCommonMaturities lenders borrowers ≠ [] := by
  apply List.ne_nil_of_mem (a := mt)
  unfold findCommonMaturities
  rw [List.mem_insertionSort]
  exact List.mem_filter.mpr ⟨List.mem_dedup.mpr h1, by simpa using h2⟩

theorem evalGroup_eq_evalMulti {g : List LoanTask} (h : g.length ≠ 1) :
    evalGroup g = evalMulti g := by
  match g with
  | [] => rfl
  | [t] => simp at h
  | a :: b :: l => rfl

/-! ### Extracting the per-group feasibility check from a passing partition -/

theorem groupCheck_of_possible {comb : List (List LoanTask)} {g : List LoanTask}
    (hg : g ∈ comb) (hpass : isLoanCombinationPossible comb = true) (hlen : g.length ≠ 1) :
    ∃ lr lrs br brs, (lendersOf g).map (·.interestRateBips) = lr :: lrs ∧
      (borrowersOf g).map (·.interestRateBips) = br :: brs ∧
      lrs.foldl Mathb.min lr ≤ brs.foldl Mathb.max br ∧
      ∃ mt, mt ∈ (lendersOf g).map (·.maturityTimestamp)
          ∧ mt ∈ (borrowersOf g).map (·.maturityTimestamp) := by
  rw [isLoanCombinationPossible, List.all_eq_true] at hpass
  have h := hpass g hg
  rw [if_neg hlen] at h
  cases hl : (lendersOf g).map (·.interestRateBips) with
  | nil => rw [hl] at h; simp at h
  | cons lr lrs =>
    cases hb : (borrowersOf g).map (·.interestRateBips) with
    | nil => rw [hl, hb] at h; simp at h
    | cons br brs =>
      rw [hl, hb] at h
      simp only at h
      by_cases hrate : lrs.foldl Mathb.min lr > brs.foldl Mathb.max br
      · rw [if_pos hrate] at h; exact absurd h (by simp)
      · rw [if_neg hrate] at h
        rw [List.any_eq_true] at h
        obtain ⟨mt, hmt1, hmt2⟩ := h
        exact ⟨lr, lrs, br, brs, rfl, rfl, not_lt.mp hrate,
          mt, hmt1, by simpa using hmt2⟩

/-! ### Claim C4 -/

/-- C4 (counterexample): a multi-order group that passes the feasibility filter and
is classified matched by the evaluator can contain orders with two distinct
maturity timestamps.  Here the group pools a maturity-1000 lender, a maturity-2000
lender and a maturity-1000 borrower; the filter only requires the lender and
borrower maturity sets to intersect, so the partition passes, the group matches
(PARTIAL_LENDER, drawing on the pooled lender total 200 that includes the
maturity-2000 lender), and two of its orders carry distinct maturities. -/
theorem distinct_maturities_cooccur_counterexample :
    isLoanCombinationPossible
        [[⟨true, 100, 500, 1000, "LA", 1⟩, ⟨true, 100, 500, 2000, "LB", 2⟩,
          ⟨false, 150, 600, 1000, "BC", 3⟩]] = true ∧
    (evalGroup [⟨true, 100, 500, 1000, "LA", 1⟩, ⟨true, 100, 500, 2000, "LB", 2⟩,
          ⟨false, 150, 600, 1000, "BC", 3⟩]).feasibility.isMatched = true ∧
    (⟨true, 100, 500, 1000, "LA", 1⟩ : LoanTask).maturityTimestamp ≠
        (⟨true, 100, 500, 2000, "LB", 2⟩ : LoanTask).maturityTimestamp := by
  refine ⟨rfl, rfl, by decide⟩

/-- C4 (amended): what the code guarantees is weaker than maturity equality — every
multi-order group of a partition that passes the feasibility filter has at least
one maturity timestamp common to its lender side and its borrower side, and so does
every group the evaluator classifies as matched; orders at other maturities may
still co-occur in the group. -/
theorem matched_group_has_common_maturity :
    (∀ comb, isLoanCombinationPossible comb = true →
      ∀ g ∈ comb, g.length ≠ 1 →
        ∃ m, m ∈ (lendersOf g).map (·.maturityTimestamp)
          ∧ m ∈ (borrowersOf g).map (·.maturityTimestamp)) ∧
    (∀ g : List LoanTask, (evalGroup g).feasibility.isMatched = true →
        ∃ m, m ∈ (lendersOf g).map (·.maturityTimestamp)
          ∧ m ∈ (borrowersOf g).map (·.maturityTimestamp)) := by
  constructor
  · intro comb hpass g hg hlen
    obtain ⟨_, _, _, _, _, _, _, mt, hmt1, hmt2⟩ := groupCheck_of_possible hg hpass hlen
    exact ⟨mt, hmt1, hmt2⟩
  · intro g h
    cases g with
    | nil => exact absurd h (by decide)
    | cons a t =>
      cases t with
      | nil => simp [evalGroup, LoanFeasibility.isMatched] at h
      | cons b l =>
        rw [evalGroup_cons_cons] at h
        unfold evalMulti at h
        by_cases hrate : minLenderRateCode (a :: b :: l) > maxBorrowerRateCode (a :: b :: l)
        · rw [if_pos hrate] at h
          simp [LoanFeasibility.isMatched] at h
        · rw [if_neg hrate] at h
          cases hcm : findCommonMaturities (lendersOf (a :: b :: l)) (borrowersOf (a :: b :: l)) with
          | nil => rw [hcm] at h; simp [LoanFeasibility.isMatched] at h
          | cons m rest =>
            have hmem : m ∈ findCommonMaturities (lendersOf (a :: b :: l)) (borrowersOf (a :: b :: l)) := by
              rw [hcm]; exact List.mem_cons_self m rest
            obtain ⟨h1, h2⟩ := mem_findCommonMaturities hmem
            exact ⟨m, h1, h2⟩

/-- Witness for the amended C4 at a concrete input: a passing two-order group has a
common lender/borrower maturity. -/
theorem matched_group_has_common_maturity_witness :
    ∃ m, m ∈ (lendersOf [⟨true, 100, 500, 1000, "L", 1⟩,
        ⟨false, 100, 600, 1000, "B", 2⟩]).map (·.maturityTimestamp)
      ∧ m ∈ (borrowersOf [⟨true, 100, 500, 1000, "L", 1⟩,
        ⟨false, 100, 600, 1000, "B", 2⟩]).map (·.maturityTimestamp) :=
  matched_group_has_common_maturity.1
    [[⟨true, 100, 500, 1000, "L", 1⟩, ⟨false, 100, 600, 1000, "B", 2⟩]] (by decide)
    [⟨true, 100, 500, 1000, "L", 1⟩, ⟨false, 100, 600, 1000, "B", 2⟩] (by decide) (by decide)

/-! ### Claim C7 -/

/-- C7 (counterexample): the evaluator's `minLenderRate` is seeded with
`Number.MAX_SAFE_INTEGER = 2^53 - 1` and therefore clamps lender rates above it.
For the filter-passing group with a single lender and a single borrower, both at
rate `2^53 + 1`, the code computes effectiveRate `(2^53-1 + 2^53+1)/2 = 2^53`,
while the claim's `floor((minLenderRate + maxBorrowerRate)/2)` with the true
minimum lender rate gives `2^53 + 1`. -/
theorem effective_rate_clamp_counterexample :
    isLoanCombinationPossible
        [[⟨true, 1, 9007199254740993, 1, "L", 1⟩,
          ⟨false, 1, 9007199254740993, 1, "B", 2⟩]] = true ∧
    ((lendersOf [⟨true, 1, 9007199254740993, 1, "L", 1⟩,
        ⟨false, 1, 9007199254740993, 1, "B", 2⟩]).map (·.interestRateBips))
      = [9007199254740993] ∧
    ((borrowersOf [⟨true, 1, 9007199254740993, 1, "L", 1⟩,
        ⟨false, 1, 9007199254740993, 1, "B", 2⟩]).map (·.interestRateBips))
      = [9007199254740993] ∧
    (evalGroup [⟨true, 1, 9007199254740993, 1, "L", 1⟩,
        ⟨false, 1, 9007199254740993, 1, "B", 2⟩]).feasibility.isMatched = true ∧
    (evalGroup [⟨true, 1, 9007199254740993, 1, "L", 1⟩,
        ⟨false, 1, 9007199254740993, 1, "B", 2⟩]).effectiveRate = 9007199254740992 ∧
    Int.fdiv (9007199254740993 + 9007199254740993) 2 = 9007199254740993 := by
  decide

/-- C7 (amended): for every multi-order group of a partition that passes the
feasibility filter, provided every rate of the group lies in `[0, 2^53 - 1]` (the
range on which the `MAX_SAFE_INTEGER` seed, the `0` seed and the truncating bigint
division are invisible), the evaluator classifies the group matched and sets its
effectiveRate to `floor((minLenderRate + maxBorrowerRate) / 2)` with exact integer
(floor) division, where `minLenderRate` / `maxBorrowerRate` are the true minimum
lender rate and maximum borrower rate of the group. -/
theorem effective_rate_floor_mean (comb : List (List LoanTask)) (g : List LoanTask)
    (hg : g ∈ comb) (hlen : 2 ≤ g.length)
    (hpass : isLoanCombinationPossible comb = true)
    (hrange : ∀ t ∈ g, 0 ≤ t.interestRateBips ∧ t.interestRateBips ≤ maxSafeInteger) :
    evalGroup g ∈ (computeLoanMatchingResult comb).matchings ∧
    (evalGroup g).feasibility.isMatched = true ∧
    (evalGroup g).effectiveRate
      = Int.fdiv (minLenderRateSpec g + maxBorrowerRateSpec g) 2 := by
  have hlen' : g.length ≠ 1 := by omega
  obtain ⟨lr, lrs, br, brs, hl, hb, hle, mt, hmt1, hmt2⟩ :=
    groupCheck_of_possible hg hpass hlen'
  have hmemL : ∀ x ∈ (lendersOf g).map (·.interestRateBips),
      0 ≤ x ∧ x ≤ maxSafeInteger := by
    intro x hx
    obtain ⟨t, ht, rfl⟩ := List.mem_map.mp hx
    exact hrange t (List.mem_filter.mp ht).1
  have hmemB : ∀ x ∈ (borrowersOf g).map (·.interestRateBips),
      0 ≤ x ∧ x ≤ maxSafeInteger := by
    intro x hx
    obtain ⟨t, ht, rfl⟩ := List.mem_map.mp hx
    exact hrange t (List.mem_filter.mp ht).1
  have hlr : 0 ≤ lr ∧ lr ≤ maxSafeInteger :=
    hmemL lr (by rw [hl]; exact List.mem_cons_self lr lrs)
  have hbr : 0 ≤ br ∧ br ≤ maxSafeInteger :=
    hmemB br (by rw [hb]; exact List.mem_cons_self br brs)
  have hminCode : minLenderRateCode g = lrs.foldl Mathb.min lr := by
    unfold minLenderRateCode
    rw [hl]
    exact foldl_mathbMin_cons_of_le lrs hlr.2
  have hmaxCode : maxBorrowerRateCode g = brs.foldl Mathb.max br := by
    unfold maxBorrowerRateCode
    rw [hb]
    exact foldl_mathbMax_cons_of_le brs hbr.1
  have hminSpec : minLenderRateSpec g = lrs.foldl Mathb.min lr := by
    unfold minLenderRateSpec
    rw [hl, mathbMin_eq_min]
  have hmaxSpec : maxBorrowerRateSpec g = brs.foldl Mathb.max br := by
    unfold maxBorrowerRateSpec
    rw [hb, mathbMax_eq_max]
  have hminNonneg : 0 ≤ lrs.foldl Mathb.min lr :=
    le_foldl_mathbMin lrs lr hlr.1
      (fun x hx => (hmemL x (by rw [hl]; exact List.mem_cons_of_mem lr hx)).1)
  have hmaxNonneg : 0 ≤ brs.foldl Mathb.max br :=
    le_trans hbr.1 (le_foldl_mathbMax brs br)
  have hnotgt : ¬ (minLenderRateCode g > maxBorrowerRateCode g) := by
    rw [hminCode, hmaxCode]
    exact not_lt.mpr hle
  have hne := findCommonMaturities_ne_nil hmt1 hmt2
  refine ⟨by rw [result_matchings]; exact List.mem_map_of_mem evalGroup hg, ?_⟩
  rw [evalGroup_eq_evalMulti hlen']
  cases hcm : findCommonMaturities (lendersOf g) (borrowersOf g) with
  | nil => exact absurd hcm hne
  | cons m rest =>
    have hval : evalMulti g =
        { loanTasks := g
          feasibility :=
            if principalSum (lendersOf g) = principalSum (borrowersOf g) then .FULL_MATCH
            else if principalSum (lendersOf g) > principalSum (borrowersOf g) then .PARTIAL_LENDER
            else .PARTIAL_BORROWER
          totalLenderAmount := principalSum (lendersOf g)
          totalBorrowerAmount := principalSum (borrowersOf g)
          matchedAmount := Mathb.min (principalSum (lendersOf g)) (principalSum (borrowersOf g))
          effectiveRate := Int.tdiv (minLenderRateCode g + maxBorrowerRateCode g) 2
          maturityTimestamp := m } := by
      unfold evalMulti
      rw [if_neg hnotgt, hcm]
    rw [hval]
    constructor
    · show (if principalSum (lendersOf g) = principalSum (borrowersOf g) then
          LoanFeasibility.FULL_MATCH
        else if principalSum (lendersOf g) > principalSum (borrowersOf g) then
          LoanFeasibility.PARTIAL_LENDER
        else LoanFeasibility.PARTIAL_BORROWER).isMatched = true
      split_ifs <;> rfl
    · show Int.tdiv (minLenderRateCode g + maxBorrowerRateCode g) 2
        = Int.fdiv (minLenderRateSpec g + maxBorrowerRateSpec g) 2
      rw [hminCode, hmaxCode, hminSpec, hmaxSpec]
      exact (Int.fdiv_eq_tdiv (add_nonneg hminNonneg hmaxNonneg) (by norm_num)).symm

/-- Witness for the amended C7 at a concrete input: lender at 500 bips, borrower at
600 bips, shared maturity — the matched group's effectiveRate is
`floor((500 + 600)/2) = 550`. -/
theorem effective_rate_floor_mean_witness :
    evalGroup [⟨true, 100, 500, 1000, "L", 1⟩, ⟨false, 100, 600, 1000, "B", 2⟩]
        ∈ (computeLoanMatchingResult
            [[⟨true, 100, 500, 1000, "L", 1⟩, ⟨false, 100, 600, 1000, "B", 2⟩]]).matchings ∧
    (evalGroup [⟨true, 100, 500, 1000, "L", 1⟩,
        ⟨false, 100, 600, 1000, "B", 2⟩]).feasibility.isMatched = true ∧
    (evalGroup [⟨true, 100, 500, 1000, "L", 1⟩,
        ⟨false, 100, 600, 1000, "B", 2⟩]).effectiveRate
      = Int.fdiv (minLenderRateSpec [⟨true, 100, 500, 1000, "L", 1⟩,
            ⟨false, 100, 600, 1000, "B", 2⟩]
          + maxBorrowerRateSpec [⟨true, 100, 500, 1000, "L", 1⟩,
            ⟨false, 100, 600, 1000, "B", 2⟩]) 2 :=
  effective_rate_floor_mean
    [[⟨true, 100, 500, 1000, "L", 1⟩, ⟨false, 100, 600, 1000, "B", 2⟩]]
    [⟨true, 100, 500, 1000, "L", 1⟩, ⟨false, 100, 600, 1000, "B", 2⟩]
    (by decide) (by decide) (by decide) (by decide)

/-! ### Per-group record facts (claims C8, C10, C3) -/

theorem evalMulti_totalLender (g : List LoanTask) :
    (evalMulti g).totalLenderAmount = principalSum (lendersOf g) := by
  unfold evalMulti
  split
  · rfl
  · split <;> rfl

theorem evalMulti_totalBorrower (g : List LoanTask) :
    (evalMulti g).totalBorrowerAmount = principalSum (borrowersOf g) := by
  unfold evalMulti
  split
  · rfl
  · split <;> rfl

theorem evalGroup_totalLender (g : List LoanTask) :
    (evalGroup g).totalLenderAmount = principalSum (lendersOf g) := by
  match g with
  | [] => rw [evalGroup_eq_evalMulti (by simp)]; exact evalMulti_totalLender []
  | [t] => cases h : t.isLender <;> simp [evalGroup, lendersOf, principalSum, h]
  | a :: b :: l => rw [evalGroup_cons_cons]; exact evalMulti_totalLender _

theorem evalGroup_totalBorrower (g : List LoanTask) :
    (evalGroup g).totalBorrowerAmount = principalSum (borrowersOf g) := by
  match g with
  | [] => rw [evalGroup_eq_evalMulti (by simp)]; exact evalMulti_totalBorrower []
  | [t] => cases h : t.isLender <;> simp [evalGroup, borrowersOf, principalSum, h]
  | a :: b :: l => rw [evalGroup_cons_cons]; exact evalMulti_totalBorrower _

theorem evalMulti_matched_zero_of_not_matched (g : List LoanTask) :
    (evalMulti g).feasibility.isMatched = false → (evalMulti g).matchedAmount = 0 := by
  unfold evalMulti
  split
  · intro _; rfl
  · split
    · intro _; rfl
    · split_ifs <;> simp [LoanFeasibility.isMatched]

theorem evalGroup_matched_zero_of_not_matched {g : List LoanTask}
    (h : (evalGroup g).feasibility.isMatched = false) : (evalGroup g).matchedAmount = 0 := by
  match g with
  | [] => exact evalMulti_matched_zero_of_not_matched [] h
  | [t] => rfl
  | a :: b :: l => exact evalMulti_matched_zero_of_not_matched _ h

theorem principalSum_nonneg {ts : List LoanTask} (h : ∀ t ∈ ts, 0 ≤ t.principalAmount) :
    0 ≤ principalSum ts := by
  apply List.sum_nonneg
  intro x hx
  obtain ⟨t, ht, rfl⟩ := List.mem_map.mp hx
  exact h t ht

theorem evalGroup_matched_le_min (g : List LoanTask)
    (hp : ∀ t ∈ g, 0 ≤ t.principalAmount) :
    (evalGroup g).matchedAmount
      ≤ min (principalSum (lendersOf g)) (principalSum (borrowersOf g)) ∧
    0 ≤ (evalGroup g).matchedAmount := by
  have hL : 0 ≤ principalSum (lendersOf g) :=
    principalSum_nonneg (fun t ht => hp t (List.mem_filter.mp ht).1)
  have hB : 0 ≤ principalSum (borrowersOf g) :=
    principalSum_nonneg (fun t ht => hp t (List.mem_filter.mp ht).1)
  have hmulti : (evalMulti g).matchedAmount
      ≤ min (principalSum (lendersOf g)) (principalSum (borrowersOf g)) ∧
      0 ≤ (evalMulti g).matchedAmount := by
    unfold evalMulti
    split
    · exact ⟨le_min hL hB, le_refl 0⟩
    · split
      · exact ⟨le_min hL hB, le_refl 0⟩
      · exact ⟨le_of_eq rfl, le_min hL hB⟩
  match g with
  | [] => exact hmulti
  | [t] => exact ⟨le_min hL hB, le_refl 0⟩
  | a :: b :: l => exact hmulti

theorem contrib_bounds (g : List LoanTask) (hp : ∀ t ∈ g, 0 ≤ t.principalAmount) :
    (evalGroup g).matchedAmount ≤ contribLender g ∧
    (evalGroup g).matchedAmount ≤ contribBorrower g ∧
    0 ≤ contribLender g ∧ 0 ≤ contribBorrower g := by
  have hL : 0 ≤ principalSum (lendersOf g) :=
    principalSum_nonneg (fun t ht => hp t (List.mem_filter.mp ht).1)
  have hB : 0 ≤ principalSum (borrowersOf g) :=
    principalSum_nonneg (fun t ht => hp t (List.mem_filter.mp ht).1)
  have hmm := evalGroup_matched_le_min g hp
  unfold contribLender contribBorrower
  by_cases hc : g.length = 1 ∨ (evalGroup g).feasibility.isMatched = true
  · rw [if_pos, if_pos]
    · refine ⟨?_, ?_, ?_, ?_⟩
      · rcases hc with hc | hc
        · have h0 : (evalGroup g).matchedAmount = 0 := by
            match g, hc with
            | [t], _ => rfl
          rw [h0, evalGroup_totalLender]
          exact hL
        · rw [evalGroup_totalLender]
          exact le_trans hmm.1 (min_le_left _ _)
      · rcases hc with hc | hc
        · have h0 : (evalGroup g).matchedAmount = 0 := by
            match g, hc with
            | [t], _ => rfl
          rw [h0, evalGroup_totalBorrower]
          exact hB
        · rw [evalGroup_totalBorrower]
          exact le_trans hmm.1 (min_le_right _ _)
      · rw [evalGroup_totalLender]; exact hL
      · rw [evalGroup_totalBorrower]; exact hB
    · rcases hc with hc | hc
      · exact Or.inl hc
      · exact Or.inr hc
    · rcases hc with hc | hc
      · exact Or.inl hc
      · exact Or.inr hc
  · rw [if_neg hc, if_neg hc]
    push_neg at hc
    have hnm : (evalGroup g).feasibility.isMatched = false :=
      Bool.eq_false_iff.mpr (fun habs => hc.2 habs)
    have := evalGroup_matched_zero_of_not_matched hnm
    rw [this]
    exact ⟨le_refl 0, le_refl 0, le_refl 0, le_refl 0⟩

/-! ### Aggregate sum lemmas -/

theorem result_totalMatched_map (comb : List (List LoanTask)) :
    (computeLoanMatchingResult comb).totalMatchedAmount
      = (comb.map (fun g => (evalGroup g).matchedAmount)).sum := by
  rw [result_totalMatched, List.map_map]
  rfl

theorem sum_map_with_group (f : List LoanTask → Int) (pre post : List (List LoanTask))
    (g : List LoanTask) :
    ((pre ++ g :: post).map f).sum = ((pre ++ post).map f).sum + f g := by
  simp only [List.map_append, List.sum_append, List.map_cons, List.sum_cons]
  ring

/-! ### Claim C8 -/

/-- C8: on any input partition all of whose orders carry a nonnegative principal
(order principals are unsigned in the data model), every group's matchedAmount is
at most the minimum of the group's lender principal total and borrower principal
total, and the aggregate unmatched amounts of both sides are nonnegative. -/
theorem matched_bounded_unmatched_nonneg (comb : List (List LoanTask))
    (hp : ∀ t ∈ comb.join, 0 ≤ t.principalAmount) :
    (∀ g ∈ comb, (evalGroup g).matchedAmount
        ≤ min (principalSum (lendersOf g)) (principalSum (borrowersOf g))) ∧
    0 ≤ (computeLoanMatchingResult comb).unmatchedLenderAmount ∧
    0 ≤ (computeLoanMatchingResult comb).unmatchedBorrowerAmount := by
  have hp' : ∀ g ∈ comb, ∀ t ∈ g, 0 ≤ t.principalAmount :=
    fun g hg t ht => hp t (List.mem_join.mpr ⟨g, hg, ht⟩)
  refine ⟨fun g hg => (evalGroup_matched_le_min g (hp' g hg)).1, ?_, ?_⟩
  · rw [result_unmatchedLender]
    have hsum : ((comb.map evalGroup).map (·.matchedAmount)).sum
        ≤ (comb.map contribLender).sum := by
      rw [List.map_map]
      exact List.sum_le_sum (fun g hg => (contrib_bounds g (hp' g hg)).1)
    exact sub_nonneg.mpr hsum
  · rw [result_unmatchedBorrower]
    have hsum : ((comb.map evalGroup).map (·.matchedAmount)).sum
        ≤ (comb.map contribBorrower).sum := by
      rw [List.map_map]
      exact List.sum_le_sum (fun g hg => (contrib_bounds g (hp' g hg)).2.1)
    exact sub_nonneg.mpr hsum

/-- Witness for C8 at a concrete input: one matched two-order group. -/
theorem matched_bounded_unmatched_nonneg_witness :
    (∀ g ∈ [[(⟨true, 100, 500, 1000, "L", 1⟩ : LoanTask),
        ⟨false, 40, 600, 1000, "B", 2⟩]], (evalGroup g).matchedAmount
        ≤ min (principalSum (lendersOf g)) (principalSum (borrowersOf g))) ∧
    0 ≤ (computeLoanMatchingResult [[⟨true, 100, 500, 1000, "L", 1⟩,
        ⟨false, 40, 600, 1000, "B", 2⟩]]).unmatchedLenderAmount ∧
    0 ≤ (computeLoanMatchingResult [[⟨true, 100, 500, 1000, "L", 1⟩,
        ⟨false, 40, 600, 1000, "B", 2⟩]]).unmatchedBorrowerAmount :=
  matched_bounded_unmatched_nonneg
    [[⟨true, 100, 500, 1000, "L", 1⟩, ⟨false, 40, 600, 1000, "B", 2⟩]] (by decide)

/-! ### Claim C10 -/

theorem contrib_zero_of_failed {g : List LoanTask} (hlen : g.length ≠ 1)
    (h : (evalGroup g).feasibility = .NO_RATE_OVERLAP ∨
      (evalGroup g).feasibility = .MATURITY_MISMATCH) :
    contribLender g = 0 ∧ contribBorrower g = 0 ∧ (evalGroup g).matchedAmount = 0 := by
  have hnm : (evalGroup g).feasibility.isMatched = false := by
    rcases h with h | h <;> rw [h] <;> rfl
  have hcond : ¬ (g.length = 1 ∨ (evalGroup g).feasibility.isMatched = true) := by
    rintro (hc | hc)
    · exact hlen hc
    · rw [hnm] at hc
      exact Bool.false_ne_true hc
  refine ⟨?_, ?_, evalGroup_matched_zero_of_not_matched hnm⟩
  · unfold contribLender
    rw [if_neg hcond]
  · unfold contribBorrower
    rw [if_neg hcond]

/-- C10: a multi-order group that fails the evaluator's rate-overlap or
common-maturity check contributes nothing to the aggregate result — the five
aggregate amounts are exactly those of the partition with that group removed —
while a singleton group always adds its principal to its own side's total. -/
theorem failed_group_contributes_nothing :
    (∀ (pre post : List (List LoanTask)) (g : List LoanTask),
      2 ≤ g.length →
      ((evalGroup g).feasibility = .NO_RATE_OVERLAP ∨
        (evalGroup g).feasibility = .MATURITY_MISMATCH) →
      (computeLoanMatchingResult (pre ++ g :: post)).totalLenderAmount
          = (computeLoanMatchingResult (pre ++ post)).totalLenderAmount ∧
      (computeLoanMatchingResult (pre ++ g :: post)).totalBorrowerAmount
          = (computeLoanMatchingResult (pre ++ post)).totalBorrowerAmount ∧
      (computeLoanMatchingResult (pre ++ g :: post)).totalMatchedAmount
          = (computeLoanMatchingResult (pre ++ post)).totalMatchedAmount ∧
      (computeLoanMatchingResult (pre ++ g :: post)).unmatchedLenderAmount
          = (computeLoanMatchingResult (pre ++ post)).unmatchedLenderAmount ∧
      (computeLoanMatchingResult (pre ++ g :: post)).unmatchedBorrowerAmount
          = (computeLoanMatchingResult (pre ++ post)).unmatchedBorrowerAmount) ∧
    (∀ (pre post : List (List LoanTask)) (t : LoanTask),
      (computeLoanMatchingResult (pre ++ [t] :: post)).totalLenderAmount
          = (computeLoanMatchingResult (pre ++ post)).totalLenderAmount
            + (if t.isLender then t.principalAmount else 0) ∧
      (computeLoanMatchingResult (pre ++ [t] :: post)).totalBorrowerAmount
          = (computeLoanMatchingResult (pre ++ post)).totalBorrowerAmount
            + (if t.isLender then 0 else t.principalAmount)) := by
  constructor
  · intro pre post g hlen h
    obtain ⟨hcl, hcb, hm⟩ := contrib_zero_of_failed (by omega) h
    have e1 : (computeLoanMatchingResult (pre ++ g :: post)).totalLenderAmount
        = (computeLoanMatchingResult (pre ++ post)).totalLenderAmount := by
      rw [result_totalLender, result_totalLender, sum_map_with_group, hcl, add_zero]
    have e2 : (computeLoanMatchingResult (pre ++ g :: post)).totalBorrowerAmount
        = (computeLoanMatchingResult (pre ++ post)).totalBorrowerAmount := by
      rw [result_totalBorrower, result_totalBorrower, sum_map_with_group, hcb, add_zero]
    have e3 : (computeLoanMatchingResult (pre ++ g :: post)).totalMatchedAmount
        = (computeLoanMatchingResult (pre ++ post)).totalMatchedAmount := by
      rw [result_totalMatched_map, result_totalMatched_map, sum_map_with_group, hm, add_zero]
    refine ⟨e1, e2, e3, ?_, ?_⟩
    · show (computeLoanMatchingResult (pre ++ g :: post)).totalLenderAmount
          - (computeLoanMatchingResult (pre ++ g :: post)).totalMatchedAmount
        = (computeLoanMatchingResult (pre ++ post)).totalLenderAmount
          - (computeLoanMatchingResult (pre ++ post)).totalMatchedAmount
      rw [e1, e3]
    · show (computeLoanMatchingResult (pre ++ g :: post)).totalBorrowerAmount
          - (computeLoanMatchingResult (pre ++ g :: post)).totalMatchedAmount
        = (computeLoanMatchingResult (pre ++ post)).totalBorrowerAmount
          - (computeLoanMatchingResult (pre ++ post)).totalMatchedAmount
      rw [e2, e3]
  · intro pre post t
    constructor
    · rw [result_totalLender, result_totalLender, sum_map_with_group]
      have : contribLender [t] = (if t.isLender then t.principalAmount else 0) := rfl
      rw [this]
    · rw [result_totalBorrower, result_totalBorrower, sum_map_with_group]
      have : contribBorrower [t] = (if t.isLender then 0 else t.principalAmount) := rfl
      rw [this]

/-- Witness for C10 at concrete inputs: a rate-incompatible two-order group leaves
every aggregate amount unchanged, and a singleton lender adds its principal to the
lender total. -/
theorem failed_group_contributes_nothing_witness :
    ((computeLoanMatchingResult [[⟨true, 5, 700, 1, "L", 1⟩, ⟨false, 7, 600, 1, "B", 2⟩]]).totalLenderAmount
        = (computeLoanMatchingResult []).totalLenderAmount ∧
      (computeLoanMatchingResult [[⟨true, 5, 700, 1, "L", 1⟩, ⟨false, 7, 600, 1, "B", 2⟩]]).totalBorrowerAmount
        = (computeLoanMatchingResult []).totalBorrowerAmount ∧
      (computeLoanMatchingResult [[⟨true, 5, 700, 1, "L", 1⟩, ⟨false, 7, 600, 1, "B", 2⟩]]).totalMatchedAmount
        = (computeLoanMatchingResult []).totalMatchedAmount ∧
      (computeLoanMatchingResult [[⟨true, 5, 700, 1, "L", 1⟩, ⟨false, 7, 600, 1, "B", 2⟩]]).unmatchedLenderAmount
        = (computeLoanMatchingResult []).unmatchedLenderAmount ∧
      (computeLoanMatchingResult [[⟨true, 5, 700, 1, "L", 1⟩, ⟨false, 7, 600, 1, "B", 2⟩]]).unmatchedBorrowerAmount
        = (computeLoanMatchingResult []).unmatchedBorrowerAmount) ∧
    ((computeLoanMatchingResult [[⟨true, 5, 700, 1, "L", 1⟩]]).totalLenderAmount
        = (computeLoanMatchingResult []).totalLenderAmount
          + (if (⟨true, 5, 700, 1, "L", 1⟩ : LoanTask).isLender then
              (⟨true, 5, 700, 1, "L", 1⟩ : LoanTask).principalAmount else 0) ∧
      (computeLoanMatchingResult [[⟨true, 5, 700, 1, "L", 1⟩]]).totalBorrowerAmount
        = (computeLoanMatchingResult []).totalBorrowerAmount
          + (if (⟨true, 5, 700, 1, "L", 1⟩ : LoanTask).isLender then 0 else
              (⟨true, 5, 700, 1, "L", 1⟩ : LoanTask).principalAmount)) :=
  ⟨failed_group_contributes_nothing.1 [] []
      [⟨true, 5, 700, 1, "L", 1⟩, ⟨false, 7, 600, 1, "B", 2⟩] (by decide) (by decide),
    failed_group_contributes_nothing.2 [] [] ⟨true, 5, 700, 1, "L", 1⟩⟩

/-! ### Claim C6: the selector as a lexicographic first-maximum -/

theorem beatsBest_iff (r b : LoanMatchingResult) :
    beatsBest r b = true ↔ criteriaBetter r b := by
  unfold beatsBest criteriaBetter
  split_ifs with h1 h2 h3 h4
  · exact iff_of_true rfl (Or.inl h1)
  · exact iff_of_true rfl (Or.inr ⟨h2, Or.inl h3⟩)
  · rw [decide_eq_true_iff]
    constructor
    · intro ha
      exact Or.inr ⟨h2, Or.inr ⟨h4, ha⟩⟩
    · rintro (h | ⟨_, h | ⟨_, ha⟩⟩)
      · exact absurd h h1
      · exact absurd h h3
      · exact ha
  · refine iff_of_false (by simp) ?_
    rintro (h | ⟨_, h | ⟨hee, _⟩⟩)
    · exact h1 h
    · exact h3 h
    · exact h4 hee
  · refine iff_of_false (by simp) ?_
    rintro (h | ⟨he, _⟩)
    · exact h1 h
    · exact h2 he

theorem criteriaBetter_irrefl (a : LoanMatchingResult) : ¬ criteriaBetter a a := by
  unfold criteriaBetter
  rintro (h | ⟨_, h | ⟨_, h⟩⟩) <;> omega

theorem criteriaBetter_trans {a b c : LoanMatchingResult}
    (h1 : criteriaBetter a b) (h2 : criteriaBetter b c) : criteriaBetter a c := by
  unfold criteriaBetter at h1 h2 ⊢
  rcases h1 with h1 | ⟨e1, h1⟩ <;> rcases h2 with h2 | ⟨e2, h2⟩
  · exact Or.inl (by omega)
  · exact Or.inl (by omega)
  · exact Or.inl (by omega)
  · refine Or.inr ⟨by omega, ?_⟩
    rcases h1 with h1 | ⟨f1, h1⟩ <;> rcases h2 with h2 | ⟨f2, h2⟩
    · exact Or.inl (by omega)
    · exact Or.inl (by omega)
    · exact Or.inl (by omega)
    · exact Or.inr ⟨by omega, by omega⟩

theorem criteriaBetter_trichotomy (a b : LoanMatchingResult) :
    criteriaBetter a b ∨ criteriaBetter b a ∨ criteriaTied a b := by
  unfold criteriaBetter criteriaTied
  by_cases h1 : a.totalMatchedAmount = b.totalMatchedAmount
  · by_cases h2 : a.matchingEfficiency = b.matchingEfficiency
    · by_cases h3 : a.averageBorrowerRate = b.averageBorrowerRate
      · exact Or.inr (Or.inr ⟨h1, h2, h3⟩)
      · rcases lt_or_gt_of_ne h3 with h | h
        · exact Or.inl (Or.inr ⟨h1, Or.inr ⟨h2, h⟩⟩)
        · exact Or.inr (Or.inl (Or.inr ⟨h1.symm, Or.inr ⟨h2.symm, h⟩⟩))
    · rcases lt_or_gt_of_ne h2 with h | h
      · exact Or.inr (Or.inl (Or.inr ⟨h1.symm, Or.inl h⟩))
      · exact Or.inl (Or.inr ⟨h1, Or.inl h⟩)
  · rcases lt_or_gt_of_ne h1 with h | h
    · exact Or.inr (Or.inl (Or.inl h))
    · exact Or.inl (Or.inl h)

theorem criteriaTied_better {a b c : LoanMatchingResult}
    (ht : criteriaTied a b) (h : criteriaBetter a c) : criteriaBetter b c := by
  unfold criteriaTied at ht
  unfold criteriaBetter at h ⊢
  rcases h with h | ⟨e, h | ⟨f, h⟩⟩
  · exact Or.inl (by omega)
  · exact Or.inr ⟨by omega, Or.inl (by omega)⟩
  · exact Or.inr ⟨by omega, Or.inr ⟨by omega, by omega⟩⟩

theorem foldl_pickBetter_first_max :
    ∀ (t : List LoanMatchingResult) (b : LoanMatchingResult),
    (t.foldl pickBetter b = b ∧ ∀ r ∈ t, ¬ criteriaBetter r b) ∨
    (∃ i r', t.get? i = some r' ∧ t.foldl pickBetter b = r' ∧
      criteriaBetter r' b ∧ (∀ s ∈ t, ¬ criteriaBetter s r') ∧
      (∀ j s, j < i → t.get? j = some s → criteriaBetter r' s)) := by
  intro t
  induction t with
  | nil => exact fun b => Or.inl ⟨rfl, by simp⟩
  | cons r rest ih =>
    intro b
    by_cases hbeat : beatsBest r b = true
    · have hrb : criteriaBetter r b := (beatsBest_iff r b).mp hbeat
      have hfold : (r :: rest).foldl pickBetter b = rest.foldl pickBetter r := by
        simp [List.foldl_cons, pickBetter, hbeat]
      rcases ih r with ⟨hval, hall⟩ | ⟨i, r', hi, hval, hbr, hall, hfirst⟩
      · refine Or.inr ⟨0, r, rfl, by rw [hfold, hval], hrb, ?_, by omega⟩
        intro s hs
        rcases List.mem_cons.mp hs with rfl | hs
        · exact criteriaBetter_irrefl s
        · exact hall s hs
      · refine Or.inr ⟨i + 1, r', by simpa using hi, by rw [hfold, hval], ?_, ?_, ?_⟩
        · exact criteriaBetter_trans hbr hrb
        · intro s hs
          rcases List.mem_cons.mp hs with rfl | hs
          · intro habs
            exact criteriaBetter_irrefl s (criteriaBetter_trans habs hbr)
          · exact hall s hs
        · intro j s hj hjs
          cases j with
          | zero =>
            cases hjs
            exact hbr
          | succ j' =>
            exact hfirst j' s (by omega) (by simpa using hjs)
    · have hrb : ¬ criteriaBetter r b := fun h => hbeat ((beatsBest_iff r b).mpr h)
      have hfold : (r :: rest).foldl pickBetter b = rest.foldl pickBetter b := by
        simp [List.foldl_cons, pickBetter, hbeat]
      rcases ih b with ⟨hval, hall⟩ | ⟨i, r', hi, hval, hbr, hall, hfirst⟩
      · refine Or.inl ⟨by rw [hfold, hval], ?_⟩
        intro s hs
        rcases List.mem_cons.mp hs with rfl | hs
        · exact hrb
        · exact hall s hs
      · have hnrr' : ¬ criteriaBetter r r' := by
          intro habs
          exact hrb (criteriaBetter_trans habs hbr)
        refine Or.inr ⟨i + 1, r', by simpa using hi, by rw [hfold, hval], hbr, ?_, ?_⟩
        · intro s hs
          rcases List.mem_cons.mp hs with rfl | hs
          · exact hnrr'
          · exact hall s hs
        · intro j s hj hjs
          cases j with
          | zero =>
            cases hjs
            rcases criteriaBetter_trichotomy r' r with h | h | h
            · exact h
            · exact absurd h hnrr'
            · exact absurd (criteriaTied_better h hbr) hrb
          | succ j' =>
            exact hfirst j' s (by omega) (by simpa using hjs)

theorem bestLoop_some_eq_foldl :
    ∀ (t : List LoanMatchingResult) (b : LoanMatchingResult),
    (∀ r ∈ t, r.feasible = true) → bestLoop (some b) t = some (t.foldl pickBetter b) := by
  intro t
  induction t with
  | nil => exact fun b _ => rfl
  | cons r rest ih =>
    intro b h
    have hr : r.feasible = true := h r (List.mem_cons_self r rest)
    have hrest : ∀ x ∈ rest, x.feasible = true := fun x hx => h x (List.mem_cons_of_mem r hx)
    simp only [bestLoop, hr, Bool.not_true, if_neg (by simp : ¬ (false = true))]
    by_cases hbeat : beatsBest r b = true
    · rw [if_pos hbeat, ih r hrest]
      simp [pickBetter, hbeat]
    · rw [if_neg hbeat, ih b hrest]
      simp [pickBetter, hbeat]

/-- C6: on a non-empty candidate list of feasible results, the selector returns
exactly the first-seen lexicographic winner: there is an index `i` whose element
`w` is returned, no candidate strictly precedes `w` under the ordered criteria
(maximal matched amount, then maximal efficiency, then minimal average rate), and
every candidate seen before index `i` is strictly worse than `w` — so on a full
tie of all three criteria the first-seen candidate is kept.  As a pure function of
the list, the selector is deterministic: identical inputs give this same winner. -/
theorem selector_first_lexicographic_winner (r : LoanMatchingResult)
    (rest : List LoanMatchingResult)
    (hf : ∀ x ∈ r :: rest, x.feasible = true) :
    ∃ i w, (r :: rest).get? i = some w ∧
      computeBestLoanResult (r :: rest) = some w ∧
      (∀ s ∈ r :: rest, ¬ criteriaBetter s w) ∧
      (∀ j s, j < i → (r :: rest).get? j = some s → criteriaBetter w s) := by
  have hr : r.feasible = true := hf r (List.mem_cons_self r rest)
  have hrest : ∀ x ∈ rest, x.feasible = true := fun x hx => hf x (List.mem_cons_of_mem r hx)
  have hloop : bestLoop none (r :: rest) = some (rest.foldl pickBetter r) := by
    simp only [bestLoop, hr, Bool.not_true, if_neg (by simp : ¬ (false = true))]
    exact bestLoop_some_eq_foldl rest r hrest
  have hbest : computeBestLoanResult (r :: rest) = some (rest.foldl pickBetter r) := by
    unfold computeBestLoanResult
    rw [hloop]
  rcases foldl_pickBetter_first_max rest r with ⟨hval, hall⟩ | ⟨i, r', hi, hval, hbr, hall, hfirst⟩
  · refine ⟨0, r, rfl, by rw [hbest, hval], ?_, by omega⟩
    intro s hs
    rcases List.mem_cons.mp hs with rfl | hs
    · exact criteriaBetter_irrefl s
    · exact hall s hs
  · refine ⟨i + 1, r', by simpa using hi, by rw [hbest, hval], ?_, ?_⟩
    · intro s hs
      rcases List.mem_cons.mp hs with rfl | hs
      · intro habs
        exact criteriaBetter_irrefl s (criteriaBetter_trans habs hbr)
      · exact hall s hs
    · intro j s hj hjs
      cases j with
      | zero =>
        cases hjs
        exact hbr
      | succ j' =>
        exact hfirst j' s (by omega) (by simpa using hjs)

/-- Witness for C6 at a concrete input: a single feasible candidate list. -/
theorem selector_first_lexicographic_winner_witness :
    ∃ i w, [computeLoanMatchingResult
        [[(⟨true, 100, 500, 1000, "L", 1⟩ : LoanTask),
          ⟨false, 100, 600, 1000, "B", 2⟩]]].get? i = some w ∧
      computeBestLoanResult [computeLoanMatchingResult
        [[⟨true, 100, 500, 1000, "L", 1⟩, ⟨false, 100, 600, 1000, "B", 2⟩]]] = some w ∧
      (∀ s ∈ [computeLoanMatchingResult
          [[(⟨true, 100, 500, 1000, "L", 1⟩ : LoanTask),
            ⟨false, 100, 600, 1000, "B", 2⟩]]], ¬ criteriaBetter s w) ∧
      (∀ j s, j < i → [computeLoanMatchingResult
          [[(⟨true, 100, 500, 1000, "L", 1⟩ : LoanTask),
            ⟨false, 100, 600, 1000, "B", 2⟩]]].get? j = some s → criteriaBetter w s) :=
  selector_first_lexicographic_winner
    (computeLoanMatchingResult
      [[⟨true, 100, 500, 1000, "L", 1⟩, ⟨false, 100, 600, 1000, "B", 2⟩]]) []
    (by decide)

/-! ### Record facts and integer-division lemmas for the transfer calculator -/

theorem evalGroup_loanTasks (g : List LoanTask) : (evalGroup g).loanTasks = g := by
  have hmulti : (evalMulti g).loanTasks = g := by
    unfold evalMulti
    split
    · rfl
    · split <;> rfl
  match g with
  | [] => exact hmulti
  | [t] => rfl
  | a :: b :: l => exact hmulti

theorem evalGroup_not_partial_both (g : List LoanTask) :
    (evalGroup g).feasibility ≠ .PARTIAL_BOTH := by
  have hmulti : (evalMulti g).feasibility ≠ .PARTIAL_BOTH := by
    unfold evalMulti
    split
    · simp
    · split
      · simp
      · split_ifs <;> simp
  match g with
  | [] => exact hmulti
  | [t] => simp [evalGroup]
  | a :: b :: l => exact hmulti

theorem isSkipped_eq_not_isMatched {f : LoanFeasibility} (h : f ≠ .PARTIAL_BOTH) :
    f.isSkippedByTransfers = !f.isMatched := by
  cases f <;> first | rfl | exact absurd rfl h

theorem evalGroup_matched_eq_min_of_matched {g : List LoanTask}
    (h : (evalGroup g).feasibility.isMatched = true) :
    (evalGroup g).matchedAmount
      = Mathb.min (principalSum (lendersOf g)) (principalSum (borrowersOf g)) := by
  have hmulti : (evalMulti g).feasibility.isMatched = true →
      (evalMulti g).matchedAmount
        = Mathb.min (principalSum (lendersOf g)) (principalSum (borrowersOf g)) := by
    unfold evalMulti
    split
    · intro hh; simp [LoanFeasibility.isMatched] at hh
    · split
      · intro hh; simp [LoanFeasibility.isMatched] at hh
      · intro _; rfl
  match g, h with
  | [t], h => simp [evalGroup, LoanFeasibility.isMatched] at h
  | [], h => exact hmulti h
  | a :: b :: l, h => exact hmulti h

theorem evalGroup_matched_sides_nonempty {g : List LoanTask}
    (h : (evalGroup g).feasibility.isMatched = true) :
    lendersOf g ≠ [] ∧ borrowersOf g ≠ [] := by
  have hmulti : (evalMulti g).feasibility.isMatched = true →
      lendersOf g ≠ [] ∧ borrowersOf g ≠ [] := by
    unfold evalMulti
    split
    · intro hh; simp [LoanFeasibility.isMatched] at hh
    · rename_i hng
      split
      · intro hh; simp [LoanFeasibility.isMatched] at hh
      · rename_i m rest hcm
        intro _
        have hmem : m ∈ findCommonMaturities (lendersOf g) (borrowersOf g) := by
          rw [hcm]; exact List.mem_cons_self m rest
        obtain ⟨h1, h2⟩ := mem_findCommonMaturities hmem
        constructor
        · intro habs; rw [habs] at h1; simp at h1
        · intro habs; rw [habs] at h2; simp at h2
  match g, h with
  | [t], h => simp [evalGroup, LoanFeasibility.isMatched] at h
  | [], h => exact hmulti h
  | a :: b :: l, h => exact hmulti h

theorem tdiv_eq_ediv_of_nonneg {a b : Int} (ha : 0 ≤ a) (hb : 0 ≤ b) :
    Int.tdiv a b = a / b := by
  rw [← Int.fdiv_eq_tdiv ha hb, Int.fdiv_eq_ediv _ hb]

theorem ediv_add_ediv_le {a b c : Int} (hc : 0 < c) : a / c + b / c ≤ (a + b) / c := by
  rw [Int.le_ediv_iff_mul_le hc, add_mul]
  have h1 := Int.ediv_mul_le a (ne_of_gt hc)
  have h2 := Int.ediv_mul_le b (ne_of_gt hc)
  omega

theorem sum_ediv_le (c : Int) (hc : 0 < c) :
    ∀ xs : List Int, (xs.map (· / c)).sum ≤ xs.sum / c := by
  intro xs
  induction xs with
  | nil => simp
  | cons x xs ih =>
    simp only [List.map_cons, List.sum_cons]
    calc x / c + (xs.map (· / c)).sum ≤ x / c + xs.sum / c := by omega
      _ ≤ (x + xs.sum) / c := ediv_add_ediv_le hc

theorem mul_sum_ediv_ge (c : Int) (hc : 0 < c) :
    ∀ xs : List Int, xs.sum - (xs.length : Int) * (c - 1) ≤ c * (xs.map (· / c)).sum := by
  intro xs
  induction xs with
  | nil => simp
  | cons x xs ih =>
    simp only [List.map_cons, List.sum_cons, List.length_cons]
    have hx : x - (c - 1) ≤ c * (x / c) := by
      have := Int.ediv_add_emod x c
      have := Int.emod_lt_of_pos x hc
      omega
    have : (↑(xs.length + 1) : Int) = (xs.length : Int) + 1 := by push_cast; ring
    rw [this]
    have hgoal : x + xs.sum - ((xs.length : Int) + 1) * (c - 1)
        ≤ c * (x / c) + c * (xs.map (· / c)).sum := by nlinarith [hx, ih]
    calc x + xs.sum - ((xs.length : Int) + 1) * (c - 1)
        ≤ c * (x / c) + c * (xs.map (· / c)).sum := hgoal
      _ = c * (x / c + (xs.map (· / c)).sum) := by ring

/-! ### The allocation loop: emitted amounts against the remainder -/

theorem mathbMin_def (a b : Int) : Mathb.min a b = min a b := rfl

theorem mathbMax_def (a b : Int) : Mathb.max a b = max a b := rfl

theorem alloc_sum_eq (m : LoanMatching) (b : LoanTask) :
    ∀ (ls : List LoanTask) (rem : Int),
      ((allocToLenders m b ls rem).1.map (·.amount)).sum
        = rem - (allocToLenders m b ls rem).2 := by
  intro ls
  induction ls with
  | nil => intro rem; simp [allocToLenders]
  | cons l ls ih =>
    intro rem
    by_cases h0 : rem = 0
    · simp [allocToLenders, h0]
    · simp only [allocToLenders, if_neg h0]
      by_cases hamt : Mathb.min rem (lenderShareOf m l) > 0
      · rw [if_pos hamt]
        simp only [List.map_cons, List.sum_cons]
        have h := ih (rem - Mathb.min rem (lenderShareOf m l))
        omega
      · rw [if_neg hamt]
        exact ih rem

theorem alloc_rem_eq (m : LoanMatching) (b : LoanTask) :
    ∀ (ls : List LoanTask) (rem : Int), 0 ≤ rem →
      (∀ l ∈ ls, 0 ≤ lenderShareOf m l) →
      (allocToLenders m b ls rem).2 = max 0 (rem - (ls.map (lenderShareOf m)).sum) := by
  intro ls
  induction ls with
  | nil =>
    intro rem h _
    simp only [allocToLenders, List.map_nil, List.sum_nil]
    omega
  | cons l ls ih =>
    intro rem hrem hsh
    have hl : 0 ≤ lenderShareOf m l := hsh l (List.mem_cons_self l ls)
    have hls : ∀ x ∈ ls, 0 ≤ lenderShareOf m x :=
      fun x hx => hsh x (List.mem_cons_of_mem l hx)
    have hsum : 0 ≤ (ls.map (lenderShareOf m)).sum := by
      apply List.sum_nonneg
      intro x hx
      obtain ⟨t, ht, rfl⟩ := List.mem_map.mp hx
      exact hls t ht
    by_cases h0 : rem = 0
    · subst h0
      have hz : (allocToLenders m b (l :: ls) 0).2 = 0 := by
        simp [allocToLenders]
      rw [hz]
      simp only [List.map_cons, List.sum_cons]
      omega
    · simp only [allocToLenders, if_neg h0, List.map_cons, List.sum_cons]
      rw [mathbMin_def]
      by_cases hamt : min rem (lenderShareOf m l) > 0
      · rw [if_pos hamt]
        have hmle : min rem (lenderShareOf m l) ≤ rem := min_le_left _ _
        have hrem' : 0 ≤ rem - min rem (lenderShareOf m l) := by omega
        have hih := ih (rem - min rem (lenderShareOf m l)) hrem' hls
        rw [hih]
        rcases le_total rem (lenderShareOf m l) with hc | hc
        · rw [min_eq_left hc]
          omega
        · rw [min_eq_right hc]
          omega
      · rw [if_neg hamt]
        rw [ih rem hrem hls]
        have hshare0 : lenderShareOf m l = 0 := by
          rcases le_total (lenderShareOf m l) rem with hc | hc
          · rw [min_eq_right hc] at hamt
            omega
          · rw [min_eq_left hc] at hamt
            omega
        rw [hshare0]
        omega

theorem alloc_drawn_eq (m : LoanMatching) (b : LoanTask) (ls : List LoanTask) (rem : Int)
    (hrem : 0 ≤ rem) (hsh : ∀ l ∈ ls, 0 ≤ lenderShareOf m l) :
    ((allocToLenders m b ls rem).1.map (·.amount)).sum
      = min rem ((ls.map (lenderShareOf m)).sum) := by
  rw [alloc_sum_eq, alloc_rem_eq m b ls rem hrem hsh]
  have hsum : 0 ≤ (ls.map (lenderShareOf m)).sum := by
    apply List.sum_nonneg
    intro x hx
    obtain ⟨t, ht, rfl⟩ := List.mem_map.mp hx
    exact hsh t ht
  omega

/-! ### Per-group transfer sums -/

theorem sum_map_flatMap {α β : Type} (f : α → List β) (h : β → Int) :
    ∀ l : List α, ((l.flatMap f).map h).sum = (l.map (fun x => ((f x).map h).sum)).sum := by
  intro l
  induction l with
  | nil => rfl
  | cons x xs ih =>
    simp only [List.flatMap_cons, List.map_append, List.sum_append, List.map_cons,
      List.sum_cons, ih]

theorem sum_map_sub_const {α : Type} (f : α → Int) (c : Int) :
    ∀ l : List α, (l.map (fun x => f x - c)).sum = (l.map f).sum - (l.length : Int) * c := by
  intro l
  induction l with
  | nil => simp
  | cons x xs ih =>
    simp only [List.map_cons, List.sum_cons, List.length_cons, ih]
    push_cast
    ring

theorem div_deficit_bound {Ln M nl SL : Int} (hL : 0 < Ln) (hn : 1 ≤ nl)
    (h : Ln * M - nl * (Ln - 1) ≤ Ln * SL) : M - SL ≤ nl - 1 := by nlinarith

theorem groupTransfers_skipped {g : List LoanTask}
    (h : (evalGroup g).feasibility.isSkippedByTransfers = true) :
    groupTransfers (evalGroup g) = [] ∧ (evalGroup g).matchedAmount = 0 := by
  constructor
  · unfold groupTransfers
    rw [if_pos h]
  · have heq := isSkipped_eq_not_isMatched (evalGroup_not_partial_both g)
    rw [h] at heq
    have hm : (evalGroup g).feasibility.isMatched = false := by
      cases hv : (evalGroup g).feasibility.isMatched
      · rfl
      · rw [hv] at heq
        exact absurd heq (by decide)
    exact evalGroup_matched_zero_of_not_matched hm

theorem groupTransfers_bounds (g : List LoanTask) (hp : ∀ t ∈ g, 0 ≤ t.principalAmount) :
    0 ≤ ((groupTransfers (evalGroup g)).map (·.amount)).sum ∧
    ((groupTransfers (evalGroup g)).map (·.amount)).sum ≤ (evalGroup g).matchedAmount ∧
    ((evalGroup g).feasibility.isSkippedByTransfers = false →
      (evalGroup g).matchedAmount - ((groupTransfers (evalGroup g)).map (·.amount)).sum
        ≤ ((lendersOf g).length : Int) * ((borrowersOf g).length : Int) - 1) := by
  by_cases hskip : (evalGroup g).feasibility.isSkippedByTransfers = true
  · obtain ⟨ht, hm⟩ := groupTransfers_skipped hskip
    rw [ht, hm]
    refine ⟨by simp, by simp, ?_⟩
    intro hfalse
    rw [hskip] at hfalse
    exact absurd hfalse (by decide)
  · have hskip' : (evalGroup g).feasibility.isSkippedByTransfers = false :=
      Bool.eq_false_iff.mpr hskip
    have hmatch : (evalGroup g).feasibility.isMatched = true := by
      have heq := isSkipped_eq_not_isMatched (evalGroup_not_partial_both g)
      rw [hskip'] at heq
      cases hv : (evalGroup g).feasibility.isMatched
      · rw [hv] at heq
        exact absurd heq (by decide)
      · rfl
    obtain ⟨hLne, hBne⟩ := evalGroup_matched_sides_nonempty hmatch
    have hnL : 1 ≤ ((lendersOf g).length : Int) := by
      have := List.length_pos.mpr hLne
      omega
    have hnB : 1 ≤ ((borrowersOf g).length : Int) := by
      have := List.length_pos.mpr hBne
      omega
    have hL0 : 0 ≤ principalSum (lendersOf g) :=
      principalSum_nonneg (fun t ht => hp t (List.mem_filter.mp ht).1)
    have hB0 : 0 ≤ principalSum (borrowersOf g) :=
      principalSum_nonneg (fun t ht => hp t (List.mem_filter.mp ht).1)
    have hM' : (evalGroup g).matchedAmount
        = min (principalSum (lendersOf g)) (principalSum (borrowersOf g)) := by
      rw [evalGroup_matched_eq_min_of_matched hmatch, mathbMin_def]
    have hM0 : 0 ≤ (evalGroup g).matchedAmount := by
      rw [hM']
      exact le_min hL0 hB0
    have hsh : ∀ l ∈ lendersOf g, 0 ≤ lenderShareOf (evalGroup g) l := by
      intro l hl
      unfold lenderShareOf
      split_ifs with hpos
      · rw [tdiv_eq_ediv_of_nonneg
          (mul_nonneg (hp l (List.mem_filter.mp hl).1) hM0) (le_of_lt hpos)]
        exact Int.ediv_nonneg (mul_nonneg (hp l (List.mem_filter.mp hl).1) hM0) (le_of_lt hpos)
      · exact le_refl 0
    have hbsn : ∀ b ∈ borrowersOf g, 0 ≤ borrowerShareOf (evalGroup g) b := by
      intro b hb
      unfold borrowerShareOf
      split_ifs with hpos
      · rw [tdiv_eq_ediv_of_nonneg
          (mul_nonneg (hp b (List.mem_filter.mp hb).1) hM0) (le_of_lt hpos)]
        exact Int.ediv_nonneg (mul_nonneg (hp b (List.mem_filter.mp hb).1) hM0) (le_of_lt hpos)
      · exact le_refl 0
    have hSL0 : 0 ≤ ((lendersOf g).map (lenderShareOf (evalGroup g))).sum := by
      apply List.sum_nonneg
      intro x hx
      obtain ⟨t, ht, rfl⟩ := List.mem_map.mp hx
      exact hsh t ht
    have htr : groupTransfers (evalGroup g)
        = (borrowersOf g).flatMap (fun b =>
            (allocToLenders (evalGroup g) b (lendersOf g)
              (borrowerShareOf (evalGroup g) b)).1) := by
      unfold groupTransfers
      rw [if_neg hskip, evalGroup_loanTasks]
    have hS : ((groupTransfers (evalGroup g)).map (·.amount)).sum
        = ((borrowersOf g).map (fun b => min (borrowerShareOf (evalGroup g) b)
            (((lendersOf g).map (lenderShareOf (evalGroup g))).sum))).sum := by
      rw [htr, sum_map_flatMap]
      apply congrArg List.sum
      apply List.map_congr_left
      intro b hb
      exact alloc_drawn_eq _ b _ _ (hbsn b hb) hsh
    have hSnonneg : 0 ≤ ((groupTransfers (evalGroup g)).map (·.amount)).sum := by
      rw [hS]
      apply List.sum_nonneg
      intro x hx
      obtain ⟨b, hb, rfl⟩ := List.mem_map.mp hx
      exact le_min (hbsn b hb) hSL0
    rcases eq_or_lt_of_le hM0 with hMz | hMpos
    · -- matched amount is zero: every borrower share is zero, so no volume moves
      have hbs0 : ∀ b ∈ borrowersOf g, borrowerShareOf (evalGroup g) b = 0 := by
        intro b hb
        unfold borrowerShareOf
        split_ifs with hpos
        · rw [← hMz, mul_zero]
          exact Int.zero_tdiv _
        · rfl
      have hSz : ((groupTransfers (evalGroup g)).map (·.amount)).sum = 0 := by
        rw [hS]
        apply List.sum_eq_zero
        intro x hx
        obtain ⟨b, hb, rfl⟩ := List.mem_map.mp hx
        rw [hbs0 b hb]
        exact min_eq_left hSL0
      have hprod : 0 < ((lendersOf g).length : Int) * ((borrowersOf g).length : Int) :=
        mul_pos (by omega) (by omega)
      rw [hSz, ← hMz]
      exact ⟨le_refl 0, le_refl 0, fun _ => by omega⟩
    · -- positive matched amount: both side totals are positive
      have hLpos : 0 < principalSum (lendersOf g) := by
        rw [hM'] at hMpos
        exact lt_of_lt_of_le hMpos (min_le_left _ _)
      have hBpos : 0 < principalSum (borrowersOf g) := by
        rw [hM'] at hMpos
        exact lt_of_lt_of_le hMpos (min_le_right _ _)
      -- rewrite the share maps as euclidean divisions
      have hshare_eq : (lendersOf g).map (lenderShareOf (evalGroup g))
          = ((lendersOf g).map (fun l =>
              l.principalAmount * (evalGroup g).matchedAmount)).map
                (· / principalSum (lendersOf g)) := by
        rw [List.map_map]
        apply List.map_congr_left
        intro l hl
        show lenderShareOf (evalGroup g) l
          = l.principalAmount * (evalGroup g).matchedAmount / principalSum (lendersOf g)
        unfold lenderShareOf
        rw [evalGroup_totalLender, if_pos hLpos]
        exact tdiv_eq_ediv_of_nonneg
          (mul_nonneg (hp l (List.mem_filter.mp hl).1) hM0) (le_of_lt hLpos)
      have hbshare_eq : (borrowersOf g).map (borrowerShareOf (evalGroup g))
          = ((borrowersOf g).map (fun b =>
              b.principalAmount * (evalGroup g).matchedAmount)).map
                (· / principalSum (borrowersOf g)) := by
        rw [List.map_map]
        apply List.map_congr_left
        intro b hb
        show borrowerShareOf (evalGroup g) b
          = b.principalAmount * (evalGroup g).matchedAmount / principalSum (borrowersOf g)
        unfold borrowerShareOf
        rw [evalGroup_totalBorrower, if_pos hBpos]
        exact tdiv_eq_ediv_of_nonneg
          (mul_nonneg (hp b (List.mem_filter.mp hb).1) hM0) (le_of_lt hBpos)
      have hxsL : ((lendersOf g).map (fun l =>
          l.principalAmount * (evalGroup g).matchedAmount)).sum
            = principalSum (lendersOf g) * (evalGroup g).matchedAmount := by
        rw [List.sum_map_mul_right]
        rfl
      have hxsB : ((borrowersOf g).map (fun b =>
          b.principalAmount * (evalGroup g).matchedAmount)).sum
            = principalSum (borrowersOf g) * (evalGroup g).matchedAmount := by
        rw [List.sum_map_mul_right]
        rfl
      have hSL_le : ((lendersOf g).map (lenderShareOf (evalGroup g))).sum
          ≤ (evalGroup g).matchedAmount := by
        rw [hshare_eq]
        calc (((lendersOf g).map (fun l =>
              l.principalAmount * (evalGroup g).matchedAmount)).map
                (· / principalSum (lendersOf g))).sum
            ≤ ((lendersOf g).map (fun l =>
                l.principalAmount * (evalGroup g).matchedAmount)).sum
                  / principalSum (lendersOf g) :=
              sum_ediv_le _ hLpos _
          _ = principalSum (lendersOf g) * (evalGroup g).matchedAmount
                / principalSum (lendersOf g) := by rw [hxsL]
          _ = (evalGroup g).matchedAmount :=
              Int.mul_ediv_cancel_left _ (ne_of_gt hLpos)
      have hSL_ge : (evalGroup g).matchedAmount
          - ((lendersOf g).map (lenderShareOf (evalGroup g))).sum
            ≤ ((lendersOf g).length : Int) - 1 := by
        have h1 := mul_sum_ediv_ge (principalSum (lendersOf g)) hLpos
          ((lendersOf g).map (fun l => l.principalAmount * (evalGroup g).matchedAmount))
        rw [hxsL, List.length_map] at h1
        rw [hshare_eq]
        exact div_deficit_bound hLpos hnL h1
      have hsbs_le : ((borrowersOf g).map (borrowerShareOf (evalGroup g))).sum
          ≤ (evalGroup g).matchedAmount := by
        rw [hbshare_eq]
        calc (((borrowersOf g).map (fun b =>
              b.principalAmount * (evalGroup g).matchedAmount)).map
                (· / principalSum (borrowersOf g))).sum
            ≤ ((borrowersOf g).map (fun b =>
                b.principalAmount * (evalGroup g).matchedAmount)).sum
                  / principalSum (borrowersOf g) :=
              sum_ediv_le _ hBpos _
          _ = principalSum (borrowersOf g) * (evalGroup g).matchedAmount
                / principalSum (borrowersOf g) := by rw [hxsB]
          _ = (evalGroup g).matchedAmount :=
              Int.mul_ediv_cancel_left _ (ne_of_gt hBpos)
      have hsbs_ge : (evalGroup g).matchedAmount
          - ((borrowersOf g).map (borrowerShareOf (evalGroup g))).sum
            ≤ ((borrowersOf g).length : Int) - 1 := by
        have h1 := mul_sum_ediv_ge (principalSum (borrowersOf g)) hBpos
          ((borrowersOf g).map (fun b => b.principalAmount * (evalGroup g).matchedAmount))
        rw [hxsB, List.length_map] at h1
        rw [hbshare_eq]
        exact div_deficit_bound hBpos hnB h1
      have hbs_le : ∀ b ∈ borrowersOf g,
          borrowerShareOf (evalGroup g) b ≤ (evalGroup g).matchedAmount := by
        intro b hb
        have hbeq : borrowerShareOf (evalGroup g) b
            = b.principalAmount * (evalGroup g).matchedAmount
                / principalSum (borrowersOf g) := by
          unfold borrowerShareOf
          rw [evalGroup_totalBorrower, if_pos hBpos]
          exact tdiv_eq_ediv_of_nonneg
            (mul_nonneg (hp b (List.mem_filter.mp hb).1) hM0) (le_of_lt hBpos)
        have hpB : b.principalAmount ≤ principalSum (borrowersOf g) := by
          apply List.single_le_sum
            (fun x hx => by
              obtain ⟨t, ht, rfl⟩ := List.mem_map.mp hx
              exact hp t (List.mem_filter.mp ht).1)
          exact List.mem_map_of_mem _ hb
        rw [hbeq]
        calc b.principalAmount * (evalGroup g).matchedAmount
              / principalSum (borrowersOf g)
            ≤ principalSum (borrowersOf g) * (evalGroup g).matchedAmount
                / principalSum (borrowersOf g) :=
              Int.ediv_le_ediv hBpos (mul_le_mul_of_nonneg_right hpB hM0)
          _ = (evalGroup g).matchedAmount :=
              Int.mul_ediv_cancel_left _ (ne_of_gt hBpos)
      -- final assembly over all borrowers
      have hS_le : ((groupTransfers (evalGroup g)).map (·.amount)).sum
          ≤ ((borrowersOf g).map (borrowerShareOf (evalGroup g))).sum := by
        rw [hS]
        exact List.sum_le_sum (fun b _ => min_le_left _ _)
      have hS_ge : ((borrowersOf g).map (fun b =>
          borrowerShareOf (evalGroup g) b - (((lendersOf g).length : Int) - 1))).sum
            ≤ ((groupTransfers (evalGroup g)).map (·.amount)).sum := by
        rw [hS]
        apply List.sum_le_sum
        intro b hb
        have h1 := hbs_le b hb
        omega
      rw [sum_map_sub_const] at hS_ge
      have hring : ((lendersOf g).length : Int) * ((borrowersOf g).length : Int) - 1
          = (((borrowersOf g).length : Int) - 1)
            + ((borrowersOf g).length : Int) * (((lendersOf g).length : Int) - 1) := by
        ring
      refine ⟨hSnonneg, le_trans hS_le hsbs_le, fun _ => by omega⟩

/-! ### Claim C3 -/

theorem sum_map_sub {α : Type} (f h : α → Int) :
    ∀ l : List α, (l.map (fun x => f x - h x)).sum = (l.map f).sum - (l.map h).sum := by
  intro l
  induction l with
  | nil => simp
  | cons x xs ih =>
    simp only [List.map_cons, List.sum_cons, ih]
    ring

/-- C3: for every result the evaluator produces from a partition of orders with
nonnegative principals (winning results are always such results — the selector
returns an element of its candidate list), the emitted transfer amounts sum to at
most `totalMatchedAmount`; the shortfall is at most the total number of
lender–borrower pairings over the processed groups, and strictly less than it
whenever the result is feasible (each processed group loses strictly less than
one smallest unit per pairing). -/
theorem transfer_sum_totalMatched (comb : List (List LoanTask))
    (hp : ∀ t ∈ comb.join, 0 ≤ t.principalAmount) :
    ((computeLoanTransfers (computeLoanMatchingResult comb)).map (·.amount)).sum
        ≤ (computeLoanMatchingResult comb).totalMatchedAmount ∧
    (computeLoanMatchingResult comb).totalMatchedAmount
        - ((computeLoanTransfers (computeLoanMatchingResult comb)).map (·.amount)).sum
      ≤ transferPairings (computeLoanMatchingResult comb) ∧
    ((computeLoanMatchingResult comb).feasible = true →
      (computeLoanMatchingResult comb).totalMatchedAmount
          - ((computeLoanTransfers (computeLoanMatchingResult comb)).map (·.amount)).sum
        < transferPairings (computeLoanMatchingResult comb)) := by
  have hp' : ∀ g ∈ comb, ∀ t ∈ g, 0 ≤ t.principalAmount :=
    fun g hg t ht => hp t (List.mem_join.mpr ⟨g, hg, ht⟩)
  have hSsum : ((computeLoanTransfers (computeLoanMatchingResult comb)).map (·.amount)).sum
      = (comb.map (fun g => ((groupTransfers (evalGroup g)).map (·.amount)).sum)).sum := by
    unfold computeLoanTransfers
    rw [result_matchings, sum_map_flatMap, List.map_map]
    rfl
  have hMsum := result_totalMatched_map comb
  have hPsum : transferPairings (computeLoanMatchingResult comb)
      = (comb.map (fun g => if (evalGroup g).feasibility.isSkippedByTransfers then 0
          else ((lendersOf g).length : Int) * ((borrowersOf g).length : Int))).sum := by
    unfold transferPairings
    rw [result_matchings, List.map_map]
    apply congrArg List.sum
    apply List.map_congr_left
    intro g hg
    show (if (evalGroup g).feasibility.isSkippedByTransfers then 0
        else ((lendersOf (evalGroup g).loanTasks).length : Int)
          * ((borrowersOf (evalGroup g).loanTasks).length : Int)) = _
    rw [evalGroup_loanTasks]
  have hS_le_M : (comb.map (fun g => ((groupTransfers (evalGroup g)).map (·.amount)).sum)).sum
      ≤ (comb.map (fun g => (evalGroup g).matchedAmount)).sum :=
    List.sum_le_sum (fun g hg => (groupTransfers_bounds g (hp' g hg)).2.1)
  have hpt : ∀ g ∈ comb,
      (fun g => (evalGroup g).matchedAmount
        - ((groupTransfers (evalGroup g)).map (·.amount)).sum) g
      ≤ (fun g => (if (evalGroup g).feasibility.isSkippedByTransfers then 0
          else ((lendersOf g).length : Int) * ((borrowersOf g).length : Int))
        - (if (evalGroup g).feasibility.isSkippedByTransfers then (0 : Int) else 1)) g := by
    intro g hg
    by_cases hsk : (evalGroup g).feasibility.isSkippedByTransfers = true
    · obtain ⟨ht, hm⟩ := groupTransfers_skipped hsk
      simp only [ht, hm, if_pos hsk, List.map_nil, List.sum_nil]
      omega
    · have h := (groupTransfers_bounds g (hp' g hg)).2.2 (Bool.eq_false_iff.mpr hsk)
      simp only [if_neg hsk]
      omega
  have hdef : (comb.map (fun g => (evalGroup g).matchedAmount)).sum
      - (comb.map (fun g => ((groupTransfers (evalGroup g)).map (·.amount)).sum)).sum
      ≤ (comb.map (fun g => if (evalGroup g).feasibility.isSkippedByTransfers then 0
          else ((lendersOf g).length : Int) * ((borrowersOf g).length : Int))).sum
        - (comb.map (fun g => if (evalGroup g).feasibility.isSkippedByTransfers then (0 : Int)
            else 1)).sum := by
    have h1 := List.sum_le_sum hpt
    rw [sum_map_sub, sum_map_sub] at h1
    exact h1
  have hind_nonneg : 0 ≤ (comb.map (fun g =>
      if (evalGroup g).feasibility.isSkippedByTransfers then (0 : Int) else 1)).sum := by
    apply List.sum_nonneg
    intro x hx
    obtain ⟨g, hg, rfl⟩ := List.mem_map.mp hx
    split_ifs <;> omega
  have hfeas : (computeLoanMatchingResult comb).feasible = true →
      1 ≤ (comb.map (fun g =>
        if (evalGroup g).feasibility.isSkippedByTransfers then (0 : Int) else 1)).sum := by
    intro hf
    rw [result_feasible] at hf
    have hpos : 0 < ((comb.map evalGroup).map (·.matchedAmount)).sum := of_decide_eq_true hf
    have hex : ∃ g ∈ comb, 0 < (evalGroup g).matchedAmount := by
      by_contra habs
      push_neg at habs
      have hle : ((comb.map evalGroup).map (·.matchedAmount)).sum
          ≤ (comb.map (fun _ => (0 : Int))).sum := by
        rw [List.map_map]
        exact List.sum_le_sum (fun g hg => habs g hg)
      have hz : (comb.map (fun _ => (0 : Int))).sum = 0 := by
        apply List.sum_eq_zero
        intro x hx
        obtain ⟨g, hg, rfl⟩ := List.mem_map.mp hx
        rfl
      omega
    obtain ⟨g, hg, hgpos⟩ := hex
    have hns : (evalGroup g).feasibility.isSkippedByTransfers = false := by
      cases hv : (evalGroup g).feasibility.isSkippedByTransfers
      · rfl
      · obtain ⟨_, hm⟩ := groupTransfers_skipped hv
        omega
    have hmem : (1 : Int) ∈ comb.map (fun g =>
        if (evalGroup g).feasibility.isSkippedByTransfers then (0 : Int) else 1) := by
      have hone : (fun g => if (evalGroup g).feasibility.isSkippedByTransfers then (0 : Int) else 1) g
          = 1 := by simp [hns]
      exact List.mem_map.mpr ⟨g, hg, hone⟩
    apply List.single_le_sum _ _ hmem
    intro x hx
    obtain ⟨g', hg', rfl⟩ := List.mem_map.mp hx
    split_ifs <;> omega
  refine ⟨?_, ?_, ?_⟩
  · rw [hSsum, hMsum]
    exact hS_le_M
  · rw [hSsum, hMsum, hPsum]
    omega
  · intro hf
    have h1 := hfeas hf
    rw [hSsum, hMsum, hPsum]
    omega

/-- Witness for C3 at a concrete input: one matched group, lender 100 against
borrower 40 at compatible rates and equal maturity. -/
theorem transfer_sum_totalMatched_witness :
    ((computeLoanTransfers (computeLoanMatchingResult
        [[⟨true, 100, 500, 1000, "L", 1⟩, ⟨false, 40, 600, 1000, "B", 2⟩]])).map
          (·.amount)).sum
        ≤ (computeLoanMatchingResult
            [[⟨true, 100, 500, 1000, "L", 1⟩, ⟨false, 40, 600, 1000, "B", 2⟩]]).totalMatchedAmount ∧
    (computeLoanMatchingResult
        [[⟨true, 100, 500, 1000, "L", 1⟩, ⟨false, 40, 600, 1000, "B", 2⟩]]).totalMatchedAmount
        - ((computeLoanTransfers (computeLoanMatchingResult
            [[⟨true, 100, 500, 1000, "L", 1⟩, ⟨false, 40, 600, 1000, "B", 2⟩]])).map
              (·.amount)).sum
      ≤ transferPairings (computeLoanMatchingResult
          [[⟨true, 100, 500, 1000, "L", 1⟩, ⟨false, 40, 600, 1000, "B", 2⟩]]) ∧
    ((computeLoanMatchingResult
        [[⟨true, 100, 500, 1000, "L", 1⟩, ⟨false, 40, 600, 1000, "B", 2⟩]]).feasible = true →
      (computeLoanMatchingResult
          [[⟨true, 100, 500, 1000, "L", 1⟩, ⟨false, 40, 600, 1000, "B", 2⟩]]).totalMatchedAmount
          - ((computeLoanTransfers (computeLoanMatchingResult
              [[⟨true, 100, 500, 1000, "L", 1⟩, ⟨false, 40, 600, 1000, "B", 2⟩]])).map
                (·.amount)).sum
        < transferPairings (computeLoanMatchingResult
            [[⟨true, 100, 500, 1000, "L", 1⟩, ⟨false, 40, 600, 1000, "B", 2⟩]])) :=
  transfer_sum_totalMatched
    [[⟨true, 100, 500, 1000, "L", 1⟩, ⟨false, 40, 600, 1000, "B", 2⟩]] (by decide)

/-! ### Deduplication by key -/

theorem removeDuplicatesGo_subset :
    ∀ (l : List (List (List LoanTask))) (seen : List (List (Multiset Nat))),
      ∀ x ∈ removeDuplicatesGo seen l, x ∈ l := by
  intro l
  induction l with
  | nil => intro seen x hx; simp [removeDuplicatesGo] at hx
  | cons c rest ih =>
    intro seen x hx
    simp only [removeDuplicatesGo] at hx
    by_cases hk : comboKey c ∈ seen
    · rw [if_pos hk] at hx
      exact List.mem_cons_of_mem c (ih seen x hx)
    · rw [if_neg hk] at hx
      rcases List.mem_cons.mp hx with rfl | hx
      · exact List.mem_cons_self _ _
      · exact List.mem_cons_of_mem c (ih _ x hx)

theorem removeDuplicatesGo_key_fresh :
    ∀ (l : List (List (List LoanTask))) (seen : List (List (Multiset Nat))),
      ∀ y ∈ removeDuplicatesGo seen l, comboKey y ∉ seen := by
  intro l
  induction l with
  | nil => intro seen y hy; simp [removeDuplicatesGo] at hy
  | cons c rest ih =>
    intro seen y hy
    simp only [removeDuplicatesGo] at hy
    by_cases hk : comboKey c ∈ seen
    · rw [if_pos hk] at hy
      exact ih seen y hy
    · rw [if_neg hk] at hy
      rcases List.mem_cons.mp hy with rfl | hy
      · exact hk
      · intro habs
        exact ih _ y hy (List.mem_cons_of_mem _ habs)

theorem removeDuplicatesGo_keys_nodup :
    ∀ (l : List (List (List LoanTask))) (seen : List (List (Multiset Nat))),
      ((removeDuplicatesGo seen l).map comboKey).Nodup := by
  intro l
  induction l with
  | nil => intro seen; simp [removeDuplicatesGo]
  | cons c rest ih =>
    intro seen
    simp only [removeDuplicatesGo]
    by_cases hk : comboKey c ∈ seen
    · rw [if_pos hk]
      exact ih seen
    · rw [if_neg hk]
      simp only [List.map_cons]
      rw [List.nodup_cons]
      refine ⟨?_, ih _⟩
      intro habs
      obtain ⟨y, hy, hky⟩ := List.mem_map.mp habs
      exact removeDuplicatesGo_key_fresh rest (comboKey c :: seen) y hy
        (by rw [hky]; exact List.mem_cons_self _ _)

theorem removeDuplicatesGo_covers :
    ∀ (l : List (List (List LoanTask))) (seen : List (List (Multiset Nat))) (x),
      x ∈ l → comboKey x ∈ seen ∨
        ∃ y ∈ removeDuplicatesGo seen l, comboKey y = comboKey x := by
  intro l
  induction l with
  | nil => intro seen x hx; simp at hx
  | cons c rest ih =>
    intro seen x hx
    simp only [removeDuplicatesGo]
    rcases List.mem_cons.mp hx with rfl | hx
    · by_cases hk : comboKey x ∈ seen
      · exact Or.inl hk
      · rw [if_neg hk]
        exact Or.inr ⟨x, List.mem_cons_self _ _, rfl⟩
    · by_cases hk : comboKey c ∈ seen
      · rw [if_pos hk]
        exact ih seen x hx
      · rw [if_neg hk]
        rcases ih (comboKey c :: seen) x hx with hmem | ⟨y, hy, hky⟩
        · rcases List.mem_cons.mp hmem with heq | hmem2
          · exact Or.inr ⟨c, List.mem_cons_self _ _, heq.symm⟩
          · exact Or.inl hmem2
        · exact Or.inr ⟨y, List.mem_cons_of_mem _ hy, hky⟩

theorem removeDuplicates_subset {l : List (List (List LoanTask))} :
    ∀ x ∈ removeDuplicates l, x ∈ l :=
  removeDuplicatesGo_subset l []

theorem removeDuplicates_keys_nodup (l : List (List (List LoanTask))) :
    ((removeDuplicates l).map comboKey).Nodup :=
  removeDuplicatesGo_keys_nodup l []

theorem removeDuplicates_covers {l : List (List (List LoanTask))} {x} (hx : x ∈ l) :
    ∃ y ∈ removeDuplicates l, comboKey y = comboKey x := by
  rcases removeDuplicatesGo_covers l [] x hx with h | h
  · simp at h
  · exact h

/-! ### Insertion positions -/

theorem insertFirstIntoGroups_mem {t : LoanTask} :
    ∀ {sc x : List (List LoanTask)},
      x ∈ insertFirstIntoGroups t sc ↔
        ∃ pre g suf, sc = pre ++ g :: suf ∧ x = pre ++ (t :: g) :: suf := by
  intro sc
  induction sc with
  | nil =>
    intro x
    simp only [insertFirstIntoGroups, List.not_mem_nil, false_iff]
    rintro ⟨pre, g, suf, hsc, _⟩
    exact absurd hsc.symm (by simp)
  | cons g0 gs ih =>
    intro x
    simp only [insertFirstIntoGroups, List.mem_cons, List.mem_map]
    constructor
    · rintro (rfl | ⟨y, hy, rfl⟩)
      · exact ⟨[], g0, gs, rfl, rfl⟩
      · obtain ⟨pre, g, suf, hsc, hx⟩ := ih.mp hy
        exact ⟨g0 :: pre, g, suf, by rw [hsc]; rfl, by rw [hx]; rfl⟩
    · rintro ⟨pre, g, suf, hsc, hx⟩
      cases pre with
      | nil =>
        simp only [List.nil_append] at hsc
        cases hsc
        exact Or.inl (by rw [hx]; rfl)
      | cons p ps =>
        simp only [List.cons_append] at hsc
        cases hsc
        exact Or.inr ⟨ps ++ (t :: g) :: suf, ih.mpr ⟨ps, g, suf, rfl, rfl⟩,
          by rw [hx]; rfl⟩

/-! ### The canonical partition and the deduplication key -/

theorem comboPartition_eq_key_image (c : List (List LoanTask)) :
    comboPartition c = ((comboKey c).map Multiset.toFinset).toFinset := by
  unfold comboPartition comboKey idBlock
  rw [List.map_map]
  congr 1

theorem comboPartition_eq_of_key_eq {c1 c2 : List (List LoanTask)}
    (h : comboKey c1 = comboKey c2) : comboPartition c1 = comboPartition c2 := by
  rw [comboPartition_eq_key_image, comboPartition_eq_key_image, h]

theorem mem_idPartitions {s : Finset Nat} {P : Finset (Finset Nat)} :
    P ∈ idPartitions s ↔ P.biUnion id = s ∧ (∀ b ∈ P, b.Nonempty) ∧
      ∀ b₁ ∈ P, ∀ b₂ ∈ P, b₁ ≠ b₂ → Disjoint b₁ b₂ := by
  unfold idPartitions
  rw [Finset.mem_filter]
  constructor
  · exact fun h => h.2
  · intro h
    refine ⟨?_, h⟩
    rw [Finset.mem_powerset]
    intro b hb
    rw [Finset.mem_powerset, ← h.1]
    exact Finset.subset_biUnion_of_mem id hb

/-! ### Block structure of a combination that partitions a duplicate-free batch -/

theorem comboPartition_cons (g : List LoanTask) (c : List (List LoanTask)) :
    comboPartition (g :: c) = insert (idBlock g) (comboPartition c) := by
  simp [comboPartition]

theorem comboPartition_middle (pre suf : List (List LoanTask)) (g : List LoanTask) :
    comboPartition (pre ++ g :: suf) = insert (idBlock g) (comboPartition (pre ++ suf)) := by
  unfold comboPartition
  simp only [List.map_append, List.map_cons, List.toFinset_append, List.toFinset_cons,
    Finset.union_insert]

theorem comboPartition_biUnion : ∀ c : List (List LoanTask),
    (comboPartition c).biUnion id = (c.join.map (·.taskId)).toFinset := by
  intro c
  induction c with
  | nil => simp [comboPartition]
  | cons g c ih =>
    rw [comboPartition_cons, Finset.biUnion_insert,
      show (g :: c).join = g ++ c.join from rfl, List.map_append,
      List.toFinset_append, ← ih]
    rfl

theorem combo_blocks_facts {c : List (List LoanTask)} {l : List LoanTask}
    (hgne : ∀ g ∈ c, g ≠ []) (hperm : c.join.Perm l) (hnd : (l.map (·.taskId)).Nodup) :
    (c.map idBlock).Nodup ∧
    comboPartition c ∈ idPartitions ((l.map (·.taskId)).toFinset) := by
  have hjoin_nd : (c.join.map (·.taskId)).Nodup :=
    hnd.perm (hperm.map (·.taskId)).symm
  rw [List.map_join] at hjoin_nd
  rw [List.nodup_join] at hjoin_nd
  obtain ⟨heach, hpair⟩ := hjoin_nd
  have hpair' : c.Pairwise (fun g1 g2 =>
      List.Disjoint (g1.map (·.taskId)) (g2.map (·.taskId))) :=
    List.pairwise_map.mp hpair
  have hdisj : c.Pairwise (fun g1 g2 => Disjoint (idBlock g1) (idBlock g2)) := by
    apply hpair'.imp_of_mem
    intro g1 g2 _ _ h
    rw [Finset.disjoint_left]
    intro a ha1 ha2
    unfold idBlock at ha1 ha2
    rw [List.mem_toFinset] at ha1 ha2
    exact h ha1 ha2
  have hbne : ∀ g ∈ c, (idBlock g).Nonempty := by
    intro g hg
    unfold idBlock
    rw [List.toFinset_nonempty_iff]
    intro habs
    apply hgne g hg
    cases g with
    | nil => rfl
    | cons a l => simp at habs
  have hbnd : (c.map idBlock).Nodup := by
    have h2 : c.Pairwise (fun g1 g2 => idBlock g1 ≠ idBlock g2) := by
      apply hdisj.imp_of_mem
      intro g1 g2 hg1 _ h heq
      obtain ⟨a, ha⟩ := hbne g1 hg1
      exact (Finset.disjoint_left.mp h ha) (heq ▸ ha)
    exact List.pairwise_map.mpr h2
  refine ⟨hbnd, ?_⟩
  rw [mem_idPartitions]
  refine ⟨?_, ?_, ?_⟩
  · rw [comboPartition_biUnion c]
    exact List.toFinset_eq_of_perm _ _ (hperm.map _)
  · intro b hb
    unfold comboPartition at hb
    rw [List.mem_toFinset] at hb
    obtain ⟨g, hg, rfl⟩ := List.mem_map.mp hb
    exact hbne g hg
  · intro b1 hb1 b2 hb2 hne
    unfold comboPartition at hb1 hb2
    rw [List.mem_toFinset] at hb1 hb2
    obtain ⟨g1, hg1, rfl⟩ := List.mem_map.mp hb1
    obtain ⟨g2, hg2, rfl⟩ := List.mem_map.mp hb2
    refine List.Pairwise.forall (fun x y h => h.symm) hdisj hg1 hg2 ?_
    intro heq
    exact hne (by rw [heq])

/-! ### One generator step, before deduplication -/

theorem generate_cons_eq {t : LoanTask} {rest : List LoanTask} (h : rest ≠ []) :
    generateLoanTaskCombinations (t :: rest)
      = removeDuplicates (rawStep t rest (generateLoanTaskCombinations rest)) := by
  cases rest with
  | nil => exact absurd rfl h
  | cons r rs => rfl

theorem mem_rawStep {t : LoanTask} {rest : List LoanTask}
    {subs : List (List (List LoanTask))} {x : List (List LoanTask)} :
    x ∈ rawStep t rest subs ↔
      x = [[t], rest] ∨ (∃ sc ∈ subs, x = [t] :: sc) ∨
        ∃ sc ∈ subs, ∃ pre g suf, sc = pre ++ g :: suf ∧ x = pre ++ (t :: g) :: suf := by
  unfold rawStep
  simp only [List.mem_cons, List.mem_append, List.mem_map, List.mem_flatMap,
    insertFirstIntoGroups_mem]
  constructor
  · rintro (rfl | ⟨sc, hsc, rfl⟩ | ⟨sc, hsc, pre, g, suf, h1, h2⟩)
    · exact Or.inl rfl
    · exact Or.inr (Or.inl ⟨sc, hsc, rfl⟩)
    · exact Or.inr (Or.inr ⟨sc, hsc, pre, g, suf, h1, h2⟩)
  · rintro (rfl | ⟨sc, hsc, rfl⟩ | ⟨sc, hsc, pre, g, suf, h1, h2⟩)
    · exact Or.inl rfl
    · exact Or.inr (Or.inl ⟨sc, hsc, rfl⟩)
    · exact Or.inr (Or.inr ⟨sc, hsc, pre, g, suf, h1, h2⟩)

theorem comboKey_cons (g : List LoanTask) (c : List (List LoanTask)) :
    comboKey (g :: c) = ((g.map (·.taskId) : List Nat) : Multiset Nat) :: comboKey c := rfl

theorem comboKey_append (c1 c2 : List (List LoanTask)) :
    comboKey (c1 ++ c2) = comboKey c1 ++ comboKey c2 :=
  List.map_append _ c1 c2

theorem idBlock_cons (t : LoanTask) (g : List LoanTask) :
    idBlock (t :: g) = insert t.taskId (idBlock g) := by
  simp [idBlock]

theorem idBlock_single (t : LoanTask) : idBlock [t] = {t.taskId} := by
  simp [idBlock]

theorem insert_inj_of_not_mem {α : Type} [DecidableEq α] {a : α} {s s' : Finset α}
    (h : insert a s = insert a s') (h1 : a ∉ s) (h2 : a ∉ s') : s = s' := by
  rw [← Finset.erase_insert h1, ← Finset.erase_insert h2, h]

theorem single_of_toFinset_singleton {α : Type} [DecidableEq α] :
    ∀ {l : List α} {a : α}, l.Nodup → l.toFinset = {a} → l = [a] := by
  intro l
  induction l with
  | nil =>
    intro a _ h
    exact absurd h.symm (Finset.singleton_ne_empty a)
  | cons x xs ih =>
    intro a hnd h
    have hx : x = a := by
      have : x ∈ ({a} : Finset α) := h ▸ (by simp)
      simpa using this
    subst hx
    have hxs : xs = [] := by
      cases hxs : xs with
      | nil => rfl
      | cons y ys =>
        have hy : y ∈ (x :: xs).toFinset := by
          rw [hxs]; simp
        rw [h] at hy
        have : y = x := by simpa using hy
        rw [List.nodup_cons] at hnd
        exact absurd (by rw [← this, hxs]; exact List.mem_cons_self y ys) hnd.1
    rw [hxs]

theorem append_cons_eq_of_nodup_map {α β : Type} [DecidableEq β] (f : α → β) :
    ∀ {p1 : List α} {s1 p2 s2 : List α} {g1 g2 : α},
      p1 ++ g1 :: s1 = p2 ++ g2 :: s2 → f g1 = f g2 →
      ((p1 ++ g1 :: s1).map f).Nodup → p1 = p2 ∧ g1 = g2 ∧ s1 = s2 := by
  intro p1
  induction p1 with
  | nil =>
    intro s1 p2 s2 g1 g2 h hf hnd
    cases p2 with
    | nil =>
      simp only [List.nil_append] at h
      cases h
      exact ⟨rfl, rfl, rfl⟩
    | cons q qs =>
      simp only [List.nil_append, List.cons_append] at h
      cases h
      exfalso
      simp only [List.nil_append, List.map_cons, List.nodup_cons] at hnd
      apply hnd.1
      rw [hf]
      apply List.mem_map_of_mem
      exact List.mem_append_right qs (List.mem_cons_self g2 s2)
  | cons a p1' ih =>
    intro s1 p2 s2 g1 g2 h hf hnd
    cases p2 with
    | nil =>
      simp only [List.cons_append, List.nil_append] at h
      cases h
      exfalso
      simp only [List.cons_append, List.map_cons, List.nodup_cons] at hnd
      apply hnd.1
      rw [← hf]
      apply List.mem_map_of_mem
      exact List.mem_append_right p1' (List.mem_cons_self g1 s1)
    | cons b p2' =>
      simp only [List.cons_append] at h
      injection h with h1 h2
      subst h1
      simp only [List.cons_append, List.map_cons, List.nodup_cons] at hnd
      obtain ⟨p1eq, geq, seq⟩ := ih h2 hf hnd.2
      exact ⟨by rw [p1eq], geq, seq⟩

/-! ### Every raw-step combination partitions the extended batch -/

theorem rawStep_partitions {t : LoanTask} {rest : List LoanTask}
    {subs : List (List (List LoanTask))}
    (hsub : ∀ sc ∈ subs, (∀ g ∈ sc, g ≠ []) ∧ sc.join.Perm rest)
    (hrne : rest ≠ []) :
    ∀ x ∈ rawStep t rest subs, (∀ g ∈ x, g ≠ []) ∧ x.join.Perm (t :: rest) := by
  intro x hx
  rcases mem_rawStep.mp hx with rfl | ⟨sc, hsc, rfl⟩ | ⟨sc, hsc, pre, g, suf, rfl, rfl⟩
  · constructor
    · intro g hg
      rcases List.mem_cons.mp hg with rfl | hg
      · simp
      · rcases List.mem_cons.mp hg with rfl | hg
        · exact hrne
        · simp at hg
    · have hj : ([[t], rest] : List (List LoanTask)).join = t :: rest := by simp
      rw [hj]
  · obtain ⟨h1, h2⟩ := hsub sc hsc
    constructor
    · intro g hg
      rcases List.mem_cons.mp hg with rfl | hg
      · simp
      · exact h1 g hg
    · have hj : (([t] : List LoanTask) :: sc).join = t :: sc.join := by simp
      rw [hj]
      exact h2.cons t
  · obtain ⟨h1, h2⟩ := hsub (pre ++ g :: suf) hsc
    constructor
    · intro g' hg'
      rcases List.mem_append.mp hg' with hg' | hg'
      · exact h1 g' (List.mem_append_left _ hg')
      · rcases List.mem_cons.mp hg' with rfl | hg'
        · simp
        · exact h1 g' (List.mem_append_right _ (List.mem_cons_of_mem g hg'))
    · have hj : (pre ++ (t :: g) :: suf).join = pre.join ++ (t :: (g ++ suf.join)) := by
        simp
      have hj2 : (pre ++ g :: suf).join = pre.join ++ (g ++ suf.join) := by simp
      rw [hj]
      refine List.Perm.trans List.perm_middle ?_
      rw [← hj2]
      exact h2.cons t

/-! ### Distinct keys represent distinct partitions within one raw step -/

theorem idBlock_mem_comboPartition {g : List LoanTask} {sc : List (List LoanTask)}
    (h : g ∈ sc) : idBlock g ∈ comboPartition sc := by
  unfold comboPartition
  rw [List.mem_toFinset]
  exact List.mem_map_of_mem _ h

theorem comboPartition_append_subset {pre suf : List (List LoanTask)} {g : List LoanTask} :
    ∀ b ∈ comboPartition (pre ++ suf), b ∈ comboPartition (pre ++ g :: suf) := by
  intro b hb
  unfold comboPartition at hb ⊢
  rw [List.mem_toFinset] at hb ⊢
  obtain ⟨g', hg', rfl⟩ := List.mem_map.mp hb
  apply List.mem_map_of_mem
  rcases List.mem_append.mp hg' with h | h
  · exact List.mem_append_left _ h
  · exact List.mem_append_right _ (List.mem_cons_of_mem g h)

theorem rawStep_key_congr {t : LoanTask} {rest : List LoanTask}
    {subs : List (List (List LoanTask))}
    (hnd : ((t :: rest).map (·.taskId)).Nodup)
    (hsub : ∀ sc ∈ subs, (∀ g ∈ sc, g ≠ []) ∧ sc.join.Perm rest)
    (hsubnd : (subs.map comboPartition).Nodup)
    (hrne : rest ≠ []) :
    ∀ x ∈ rawStep t rest subs, ∀ y ∈ rawStep t rest subs,
      comboPartition x = comboPartition y → comboKey x = comboKey y := by
  simp only [List.map_cons, List.nodup_cons] at hnd
  obtain ⟨htid, hndrest⟩ := hnd
  have hsub' : ∀ sc ∈ ([rest] :: subs), (∀ g ∈ sc, g ≠ []) ∧ sc.join.Perm rest := by
    intro sc hsc
    rcases List.mem_cons.mp hsc with rfl | hsc
    · refine ⟨?_, ?_⟩
      · intro g hg
        rcases List.mem_cons.mp hg with rfl | hg
        · exact hrne
        · simp at hg
      · have : ([rest] : List (List LoanTask)).join = rest := by simp
        rw [this]
    · exact hsub sc hsc
  have hblocks' : ∀ sc ∈ ([rest] :: subs), (sc.map idBlock).Nodup ∧
      comboPartition sc ∈ idPartitions ((rest.map (·.taskId)).toFinset) :=
    fun sc hsc => combo_blocks_facts (hsub' sc hsc).1 (hsub' sc hsc).2 hndrest
  have hnotid' : ∀ sc ∈ ([rest] :: subs), ∀ b ∈ comboPartition sc, t.taskId ∉ b := by
    intro sc hsc b hb habs
    have hP := (hblocks' sc hsc).2
    rw [mem_idPartitions] at hP
    have hsubset : b ⊆ (rest.map (·.taskId)).toFinset := by
      rw [← hP.1]
      exact Finset.subset_biUnion_of_mem id hb
    have := hsubset habs
    rw [List.mem_toFinset] at this
    exact htid this
  have hsing' : ∀ sc ∈ ([rest] :: subs), ({t.taskId} : Finset Nat) ∉ comboPartition sc :=
    fun sc hsc habs => hnotid' sc hsc _ habs (Finset.mem_singleton_self _)
  -- the partition of a sub-combination determines its key, over `[rest] :: subs`
  have hAkey : ∀ sc1 ∈ ([rest] :: subs), ∀ sc2 ∈ ([rest] :: subs),
      comboPartition sc1 = comboPartition sc2 → comboKey sc1 = comboKey sc2 := by
    have hOne : ∀ sc ∈ subs, comboPartition sc = comboPartition [rest] →
        comboKey sc = comboKey [rest] := by
      intro sc hsc heq
      have hPrest : comboPartition [rest] = {idBlock rest} := by
        simp [comboPartition]
      rw [hPrest] at heq
      have hmap : sc.map idBlock = [idBlock rest] :=
        single_of_toFinset_singleton
          (hblocks' sc (List.mem_cons_of_mem _ hsc)).1 heq
      obtain ⟨g, rfl⟩ : ∃ g, sc = [g] := by
        cases sc with
        | nil => simp at hmap
        | cons g gs =>
          cases gs with
          | nil => exact ⟨g, rfl⟩
          | cons g2 gs2 => simp at hmap
      have hperm : g.Perm rest := by
        have h2 := (hsub _ hsc).2
        have hj : ([g] : List (List LoanTask)).join = g := by simp
        rw [hj] at h2
        exact h2
      have : ((g.map (·.taskId) : List Nat) : Multiset Nat)
          = ((rest.map (·.taskId) : List Nat) : Multiset Nat) :=
        Multiset.coe_eq_coe.mpr (hperm.map _)
      unfold comboKey
      simp only [List.map_cons, List.map_nil]
      rw [this]
    intro sc1 hsc1 sc2 hsc2 heq
    rcases List.mem_cons.mp hsc1 with rfl | hsc1
    · rcases List.mem_cons.mp hsc2 with rfl | hsc2
      · rfl
      · exact (hOne sc2 hsc2 heq.symm).symm
    · rcases List.mem_cons.mp hsc2 with rfl | hsc2
      · exact hOne sc1 hsc1 heq
      · rw [List.inj_on_of_nodup_map hsubnd hsc1 hsc2 heq]
  -- every raw-step element is either a separate-[t] form over `[rest] :: subs`
  -- or an insertion form over `subs`
  have hform : ∀ x ∈ rawStep t rest subs,
      (∃ sc ∈ ([rest] :: subs), x = [t] :: sc) ∨
      (∃ sc ∈ subs, ∃ pre g suf, sc = pre ++ g :: suf ∧ x = pre ++ (t :: g) :: suf) := by
    intro x hx
    rcases mem_rawStep.mp hx with rfl | ⟨sc, hsc, rfl⟩ | ⟨sc, hsc, pre, g, suf, h1, h2⟩
    · exact Or.inl ⟨[rest], List.mem_cons_self _ _, rfl⟩
    · exact Or.inl ⟨sc, List.mem_cons_of_mem _ hsc, rfl⟩
    · exact Or.inr ⟨sc, hsc, pre, g, suf, h1, h2⟩
  -- an insertion form's distinguished block contains t's id; no other block does
  intro x hx y hy heq
  rcases hform x hx with ⟨sc1, hsc1, rfl⟩ | ⟨sc1, hsc1, pre1, g1, suf1, hd1, rfl⟩
  · rcases hform y hy with ⟨sc2, hsc2, rfl⟩ | ⟨sc2, hsc2, pre2, g2, suf2, hd2, rfl⟩
    · -- both separate-[t] forms
      rw [comboPartition_cons, comboPartition_cons, idBlock_single] at heq
      have hP12 : comboPartition sc1 = comboPartition sc2 :=
        insert_inj_of_not_mem heq (hsing' sc1 hsc1) (hsing' sc2 hsc2)
      rw [comboKey_cons, comboKey_cons, hAkey sc1 hsc1 sc2 hsc2 hP12]
    · -- separate-[t] form against insertion form: impossible
      exfalso
      rw [comboPartition_cons, idBlock_single] at heq
      have hmem : ({t.taskId} : Finset Nat) ∈ comboPartition (pre2 ++ (t :: g2) :: suf2) := by
        rw [← heq]
        exact Finset.mem_insert_self _ _
      rw [comboPartition_middle, idBlock_cons] at hmem
      rcases Finset.mem_insert.mp hmem with hcase | hcase
      · -- the enlarged block would be the singleton {t.taskId}
        have hg2 : idBlock g2 ∈ comboPartition sc2 := by
          rw [hd2]
          exact idBlock_mem_comboPartition (List.mem_append_right _ (List.mem_cons_self _ _))
        have hnotid_g2 : t.taskId ∉ idBlock g2 := hnotid' sc2 (List.mem_cons_of_mem _ hsc2) _ hg2
        have hg2ne : g2 ≠ [] := (hsub sc2 hsc2).1 g2 (by
          rw [hd2]
          exact List.mem_append_right _ (List.mem_cons_self _ _))
        obtain ⟨a, ha⟩ : (idBlock g2).Nonempty := by
          unfold idBlock
          rw [List.toFinset_nonempty_iff]
          intro habs
          apply hg2ne
          cases g2 with
          | nil => rfl
          | cons u v => simp at habs
        have haa : a ∈ insert t.taskId (idBlock g2) := Finset.mem_insert_of_mem ha
        rw [← hcase] at haa
        have : a = t.taskId := Finset.mem_singleton.mp haa
        exact hnotid_g2 (this ▸ ha)
      · -- the singleton block {t.taskId} would be an untouched block of sc2
        have : ({t.taskId} : Finset Nat) ∈ comboPartition sc2 := by
          rw [hd2]
          exact comboPartition_append_subset _ hcase
        exact hsing' sc2 (List.mem_cons_of_mem _ hsc2) this
  · rcases hform y hy with ⟨sc2, hsc2, rfl⟩ | ⟨sc2, hsc2, pre2, g2, suf2, hd2, rfl⟩
    · -- insertion form against separate-[t] form: impossible (symmetric)
      exfalso
      rw [comboPartition_cons, idBlock_single] at heq
      have hmem : ({t.taskId} : Finset Nat) ∈ comboPartition (pre1 ++ (t :: g1) :: suf1) := by
        rw [heq]
        exact Finset.mem_insert_self _ _
      rw [comboPartition_middle, idBlock_cons] at hmem
      rcases Finset.mem_insert.mp hmem with hcase | hcase
      · have hg1 : idBlock g1 ∈ comboPartition sc1 := by
          rw [hd1]
          exact idBlock_mem_comboPartition (List.mem_append_right _ (List.mem_cons_self _ _))
        have hnotid_g1 : t.taskId ∉ idBlock g1 := hnotid' sc1 (List.mem_cons_of_mem _ hsc1) _ hg1
        have hg1ne : g1 ≠ [] := (hsub sc1 hsc1).1 g1 (by
          rw [hd1]
          exact List.mem_append_right _ (List.mem_cons_self _ _))
        obtain ⟨a, ha⟩ : (idBlock g1).Nonempty := by
          unfold idBlock
          rw [List.toFinset_nonempty_iff]
          intro habs
          apply hg1ne
          cases g1 with
          | nil => rfl
          | cons u v => simp at habs
        have haa : a ∈ insert t.taskId (idBlock g1) := Finset.mem_insert_of_mem ha
        rw [← hcase] at haa
        have : a = t.taskId := Finset.mem_singleton.mp haa
        exact hnotid_g1 (this ▸ ha)
      · have : ({t.taskId} : Finset Nat) ∈ comboPartition sc1 := by
          rw [hd1]
          exact comboPartition_append_subset _ hcase
        exact hsing' sc1 (List.mem_cons_of_mem _ hsc1) this
    · -- both insertion forms
      rw [comboPartition_middle, comboPartition_middle, idBlock_cons, idBlock_cons] at heq
      have hnotid_pre1 : ∀ b ∈ comboPartition (pre1 ++ suf1), t.taskId ∉ b := by
        intro b hb
        exact hnotid' sc1 (List.mem_cons_of_mem _ hsc1) b
          (by rw [hd1]; exact comboPartition_append_subset _ hb)
      have hnotid_pre2 : ∀ b ∈ comboPartition (pre2 ++ suf2), t.taskId ∉ b := by
        intro b hb
        exact hnotid' sc2 (List.mem_cons_of_mem _ hsc2) b
          (by rw [hd2]; exact comboPartition_append_subset _ hb)
      have hnotid_g1 : t.taskId ∉ idBlock g1 := by
        apply hnotid' sc1 (List.mem_cons_of_mem _ hsc1)
        rw [hd1]
        exact idBlock_mem_comboPartition (List.mem_append_right _ (List.mem_cons_self _ _))
      have hnotid_g2 : t.taskId ∉ idBlock g2 := by
        apply hnotid' sc2 (List.mem_cons_of_mem _ hsc2)
        rw [hd2]
        exact idBlock_mem_comboPartition (List.mem_append_right _ (List.mem_cons_self _ _))
      have hBx : insert t.taskId (idBlock g1) ∉ comboPartition (pre1 ++ suf1) := by
        intro habs
        exact hnotid_pre1 _ habs (Finset.mem_insert_self _ _)
      have hBy : insert t.taskId (idBlock g2) ∉ comboPartition (pre2 ++ suf2) := by
        intro habs
        exact hnotid_pre2 _ habs (Finset.mem_insert_self _ _)
      have hBxy : insert t.taskId (idBlock g1) = insert t.taskId (idBlock g2) := by
        have hmem : insert t.taskId (idBlock g1)
            ∈ insert (insert t.taskId (idBlock g2)) (comboPartition (pre2 ++ suf2)) := by
          rw [← heq]
          exact Finset.mem_insert_self _ _
        rcases Finset.mem_insert.mp hmem with hcase | hcase
        · exact hcase
        · exact absurd (Finset.mem_insert_self t.taskId (idBlock g1))
            (hnotid_pre2 _ hcase)
      have hgxy : idBlock g1 = idBlock g2 :=
        insert_inj_of_not_mem hBxy hnotid_g1 hnotid_g2
      have hPxy : comboPartition (pre1 ++ suf1) = comboPartition (pre2 ++ suf2) := by
        rw [hBxy] at heq
        exact insert_inj_of_not_mem heq (by rw [← hBxy]; exact hBx) hBy
      have hscP : comboPartition sc1 = comboPartition sc2 := by
        rw [hd1, hd2, comboPartition_middle, comboPartition_middle, hgxy, hPxy]
      have hsc12 : sc1 = sc2 := List.inj_on_of_nodup_map hsubnd hsc1 hsc2 hscP
      have hdecomp : pre1 ++ g1 :: suf1 = pre2 ++ g2 :: suf2 := by
        rw [← hd1, ← hd2, hsc12]
      have hbnd1 : ((pre1 ++ g1 :: suf1).map idBlock).Nodup := by
        rw [← hd1]
        exact (hblocks' sc1 (List.mem_cons_of_mem _ hsc1)).1
      obtain ⟨hpe, hge, hse⟩ := append_cons_eq_of_nodup_map idBlock hdecomp hgxy hbnd1
      rw [hpe, hge, hse]

/-! ### Every partition of the extended batch arises in the raw step -/

theorem biUnion_erase_of_disjoint {P : Finset (Finset Nat)} {B : Finset Nat}
    (hdisj : ∀ b₁ ∈ P, ∀ b₂ ∈ P, b₁ ≠ b₂ → Disjoint b₁ b₂) (hB : B ∈ P) :
    (P.erase B).biUnion id = P.biUnion id \ B := by
  ext a
  simp only [Finset.mem_biUnion, Finset.mem_sdiff, Finset.mem_erase, id]
  constructor
  · rintro ⟨C, ⟨hCB, hCP⟩, haC⟩
    refine ⟨⟨C, hCP, haC⟩, ?_⟩
    intro haB
    exact (Finset.disjoint_left.mp (hdisj C hCP B hB hCB) haC) haB
  · rintro ⟨⟨C, hCP, haC⟩, haB⟩
    refine ⟨C, ⟨?_, hCP⟩, haC⟩
    intro heq
    exact haB (heq ▸ haC)

theorem comboPartition_middle_not_mem {pre suf : List (List LoanTask)} {g : List LoanTask}
    (hnd : ((pre ++ g :: suf).map idBlock).Nodup) :
    idBlock g ∉ comboPartition (pre ++ suf) := by
  rw [List.map_append, List.map_cons, List.nodup_middle, List.nodup_cons] at hnd
  intro habs
  unfold comboPartition at habs
  rw [List.mem_toFinset, List.map_append] at habs
  exact hnd.1 habs

theorem rawStep_complete {t : LoanTask} {rest : List LoanTask}
    {subs : List (List (List LoanTask))}
    (hnd : ((t :: rest).map (·.taskId)).Nodup)
    (hsub : ∀ sc ∈ subs, (∀ g ∈ sc, g ≠ []) ∧ sc.join.Perm rest)
    (hsub_complete : ∀ P ∈ idPartitions ((rest.map (·.taskId)).toFinset),
        ∃ sc ∈ subs, comboPartition sc = P) :
    ∀ P ∈ idPartitions (((t :: rest).map (·.taskId)).toFinset),
      ∃ x ∈ rawStep t rest subs, comboPartition x = P := by
  simp only [List.map_cons, List.nodup_cons] at hnd
  obtain ⟨htid, hndrest⟩ := hnd
  have hs : ((t :: rest).map (·.taskId)).toFinset
      = insert t.taskId ((rest.map (·.taskId)).toFinset) := by
    simp
  have htidr : t.taskId ∉ (rest.map (·.taskId)).toFinset := by
    rw [List.mem_toFinset]
    exact htid
  intro P hP
  rw [mem_idPartitions, hs] at hP
  obtain ⟨hcover, hbne, hdisj⟩ := hP
  have htidmem : t.taskId ∈ P.biUnion id := by
    rw [hcover]
    exact Finset.mem_insert_self _ _
  obtain ⟨B, hBP, htidB0⟩ := Finset.mem_biUnion.mp htidmem
  have htidB : t.taskId ∈ B := htidB0
  by_cases hBsing : B = {t.taskId}
  · -- t's block is a singleton: use a separate-[t] combination
    have hP' : P.erase B ∈ idPartitions ((rest.map (·.taskId)).toFinset) := by
      rw [mem_idPartitions]
      refine ⟨?_, fun b hb => hbne b (Finset.mem_of_mem_erase hb), ?_⟩
      · rw [biUnion_erase_of_disjoint hdisj hBP, hcover, hBsing,
          Finset.sdiff_singleton_eq_erase, Finset.erase_insert htidr]
      · intro b1 hb1 b2 hb2 hne
        exact hdisj b1 (Finset.mem_of_mem_erase hb1) b2 (Finset.mem_of_mem_erase hb2) hne
    obtain ⟨sc, hsc, hscP⟩ := hsub_complete _ hP'
    refine ⟨[t] :: sc, mem_rawStep.mpr (Or.inr (Or.inl ⟨sc, hsc, rfl⟩)), ?_⟩
    rw [comboPartition_cons, idBlock_single, hscP, ← hBsing, Finset.insert_erase hBP]
  · -- t's block has other members: insert t into the matching group
    have hB'ne : (B.erase t.taskId).Nonempty := by
      have : ∃ a ∈ B, a ≠ t.taskId := by
        by_contra habs
        push_neg at habs
        exact hBsing (Finset.eq_singleton_iff_unique_mem.mpr ⟨htidB, habs⟩)
      obtain ⟨a, haB, hane⟩ := this
      exact ⟨a, Finset.mem_erase.mpr ⟨hane, haB⟩⟩
    have hB'notP : B.erase t.taskId ∉ P := by
      intro habs
      have hne : B.erase t.taskId ≠ B := by
        intro heq
        have := Finset.mem_erase.mp (heq ▸ htidB)
        exact this.1 rfl
      have hdj := hdisj _ habs B hBP hne
      obtain ⟨a, ha⟩ := hB'ne
      exact (Finset.disjoint_left.mp hdj ha) (Finset.mem_of_mem_erase ha)
    have hB'sub : B.erase t.taskId ⊆ (rest.map (·.taskId)).toFinset := by
      intro a ha
      obtain ⟨hane, haB⟩ := Finset.mem_erase.mp ha
      have : a ∈ insert t.taskId ((rest.map (·.taskId)).toFinset) := by
        rw [← hcover]
        exact Finset.mem_biUnion.mpr ⟨B, hBP, haB⟩
      rcases Finset.mem_insert.mp this with h | h
      · exact absurd h hane
      · exact h
    have hP' : insert (B.erase t.taskId) (P.erase B)
        ∈ idPartitions ((rest.map (·.taskId)).toFinset) := by
      rw [mem_idPartitions]
      refine ⟨?_, ?_, ?_⟩
      · rw [Finset.biUnion_insert, biUnion_erase_of_disjoint hdisj hBP, hcover,
          Finset.insert_sdiff_of_mem _ htidB]
        ext a
        simp only [Finset.mem_union, Finset.mem_erase, Finset.mem_sdiff, id]
        constructor
        · rintro (⟨hane, haB⟩ | ⟨har, hanB⟩)
          · exact hB'sub (Finset.mem_erase.mpr ⟨hane, haB⟩)
          · exact har
        · intro har
          by_cases haB : a ∈ B
          · refine Or.inl ⟨?_, haB⟩
            intro heq
            exact htidr (heq ▸ har)
          · exact Or.inr ⟨har, haB⟩
      · intro b hb
        rcases Finset.mem_insert.mp hb with rfl | hb
        · exact hB'ne
        · exact hbne b (Finset.mem_of_mem_erase hb)
      · intro b1 hb1 b2 hb2 hne
        rcases Finset.mem_insert.mp hb1 with rfl | hb1 <;>
          rcases Finset.mem_insert.mp hb2 with rfl | hb2
        · exact absurd rfl hne
        · refine Disjoint.mono_left (Finset.erase_subset _ _) ?_
          apply hdisj B hBP b2 (Finset.mem_of_mem_erase hb2)
          intro heq
          exact (Finset.mem_erase.mp hb2).1 heq.symm
        · refine (Disjoint.mono_left (Finset.erase_subset _ _) ?_).symm
          apply hdisj B hBP b1 (Finset.mem_of_mem_erase hb1)
          intro heq
          exact (Finset.mem_erase.mp hb1).1 heq.symm
        · exact hdisj b1 (Finset.mem_of_mem_erase hb1) b2 (Finset.mem_of_mem_erase hb2) hne
    obtain ⟨sc, hsc, hscP⟩ := hsub_complete _ hP'
    have hB'mem : B.erase t.taskId ∈ comboPartition sc := by
      rw [hscP]
      exact Finset.mem_insert_self _ _
    obtain ⟨g, hg, hgB⟩ : ∃ g ∈ sc, idBlock g = B.erase t.taskId := by
      unfold comboPartition at hB'mem
      rw [List.mem_toFinset] at hB'mem
      obtain ⟨g, hg, hgB⟩ := List.mem_map.mp hB'mem
      exact ⟨g, hg, hgB⟩
    obtain ⟨pre, suf, hdecomp⟩ := List.append_of_mem hg
    have hscnd : (sc.map idBlock).Nodup :=
      (combo_blocks_facts (hsub sc hsc).1 (hsub sc hsc).2 hndrest).1
    refine ⟨pre ++ (t :: g) :: suf,
      mem_rawStep.mpr (Or.inr (Or.inr ⟨sc, hsc, pre, g, suf, hdecomp, rfl⟩)), ?_⟩
    rw [comboPartition_middle, idBlock_cons, hgB, Finset.insert_erase htidB]
    have hQ : comboPartition (pre ++ suf) = P.erase B := by
      have h1 : comboPartition sc = insert (B.erase t.taskId) (comboPartition (pre ++ suf)) := by
        rw [hdecomp, comboPartition_middle, hgB]
      rw [hscP] at h1
      apply insert_inj_of_not_mem h1.symm
      · rw [← hgB]
        apply comboPartition_middle_not_mem
        rw [← hdecomp]
        exact hscnd
      · intro habs
        exact hB'notP (Finset.mem_of_mem_erase habs)
    rw [hQ, Finset.insert_erase hBP]

/-! ### The generator invariant -/

theorem nodup_map_congr {α β γ : Type} {l : List α} {f : α → β} {k : α → γ}
    (hk : (l.map k).Nodup)
    (hcong : ∀ x ∈ l, ∀ y ∈ l, f x = f y → k x = k y) : (l.map f).Nodup := by
  have hkp : l.Pairwise (fun a b => k a ≠ k b) := List.pairwise_map.mp hk
  apply List.pairwise_map.mpr
  apply hkp.imp_of_mem
  intro a b ha hb hne heq
  exact hne (hcong a ha b hb heq)

theorem generator_inv : ∀ (tasks : List LoanTask),
    (tasks.map (·.taskId)).Nodup → tasks ≠ [] →
    (∀ c ∈ generateLoanTaskCombinations tasks, (∀ g ∈ c, g ≠ []) ∧ c.join.Perm tasks) ∧
    ((generateLoanTaskCombinations tasks).map comboPartition).Nodup ∧
    (∀ P ∈ idPartitions ((tasks.map (·.taskId)).toFinset),
        ∃ c ∈ generateLoanTaskCombinations tasks, comboPartition c = P) := by
  intro tasks
  induction tasks with
  | nil => intro _ h; exact absurd rfl h
  | cons t rest ih =>
    intro hnd _
    by_cases hrne : rest = []
    · subst hrne
      have hg : generateLoanTaskCombinations [t] = [[[t]]] := rfl
      refine ⟨?_, ?_, ?_⟩
      · intro c hc
        rw [hg] at hc
        rcases List.mem_singleton.mp hc with rfl
        refine ⟨?_, ?_⟩
        · intro g hgm
          rcases List.mem_singleton.mp hgm with rfl
          simp
        · have : ([[t]] : List (List LoanTask)).join = [t] := by simp
          rw [this]
      · rw [hg]
        simp
      · intro P hP
        have hids : (([t] : List LoanTask).map (·.taskId)).toFinset = {t.taskId} := by simp
        rw [hids, mem_idPartitions] at hP
        obtain ⟨hcover, hbne, _⟩ := hP
        have hPsing : P = {({t.taskId} : Finset Nat)} := by
          have hsub : ∀ b ∈ P, b = {t.taskId} := by
            intro b hb
            have hbsub : b ⊆ {t.taskId} := by
              rw [← hcover]
              exact Finset.subset_biUnion_of_mem id hb
            rcases Finset.subset_singleton_iff.mp hbsub with rfl | h
            · obtain ⟨a, ha⟩ := hbne _ hb
              simp at ha
            · exact h
          have hmem : ({t.taskId} : Finset Nat) ∈ P := by
            have : t.taskId ∈ P.biUnion id := by
              rw [hcover]; simp
            obtain ⟨b, hb, _⟩ := Finset.mem_biUnion.mp this
            rw [← hsub b hb]
            exact hb
          exact Finset.eq_singleton_iff_unique_mem.mpr ⟨hmem, hsub⟩
        refine ⟨[[t]], by rw [hg]; exact List.mem_singleton_self _, ?_⟩
        rw [hPsing]
        simp [comboPartition, idBlock]
    · simp only [List.map_cons, List.nodup_cons] at hnd
      obtain ⟨htid, hndrest⟩ := hnd
      have hnd' : ((t :: rest).map (·.taskId)).Nodup := by
        simp only [List.map_cons, List.nodup_cons]
        exact ⟨htid, hndrest⟩
      obtain ⟨ihpart, ihnd, ihcomp⟩ := ih hndrest hrne
      rw [generate_cons_eq hrne]
      refine ⟨?_, ?_, ?_⟩
      · intro c hc
        exact rawStep_partitions ihpart hrne c (removeDuplicates_subset c hc)
      · apply nodup_map_congr (removeDuplicates_keys_nodup _)
        intro x hx y hy heq
        exact rawStep_key_congr hnd' ihpart ihnd hrne
          x (removeDuplicates_subset x hx) y (removeDuplicates_subset y hy) heq
      · intro P hP
        obtain ⟨x, hxR, hxP⟩ := rawStep_complete hnd' ihpart ihcomp P hP
        obtain ⟨y, hyO, hkey⟩ := removeDuplicates_covers hxR
        exact ⟨y, hyO, by rw [comboPartition_eq_of_key_eq hkey, hxP]⟩

theorem generator_length (tasks : List LoanTask)
    (hnd : (tasks.map (·.taskId)).Nodup) (hne : tasks ≠ []) :
    (generateLoanTaskCombinations tasks).length
      = (idPartitions ((tasks.map (·.taskId)).toFinset)).card := by
  obtain ⟨hpart, hndP, hcomp⟩ := generator_inv tasks hnd hne
  rw [← List.length_map (generateLoanTaskCombinations tasks) comboPartition,
    ← List.toFinset_card_of_nodup hndP]
  congr 1
  apply Finset.ext
  intro P
  rw [List.mem_toFinset]
  constructor
  · intro hP
    obtain ⟨c, hc, rfl⟩ := List.mem_map.mp hP
    exact (combo_blocks_facts (hpart c hc).1 (hpart c hc).2 hnd).2
  · intro hP
    obtain ⟨c, hc, hcP⟩ := hcomp P hP
    exact List.mem_map.mpr ⟨c, hc, hcP⟩

/-! ### The partition count depends only on the number of ids -/

theorem idPartitions_image {s u : Finset Nat} {f : Nat → Nat}
    (hinj : ∀ x ∈ s, ∀ y ∈ s, f x = f y → x = y) (him : s.image f = u) :
    ∀ P ∈ idPartitions s, P.image (fun b => b.image f) ∈ idPartitions u := by
  intro P hP
  rw [mem_idPartitions] at hP ⊢
  obtain ⟨hcover, hbne, hdisj⟩ := hP
  have hbsub : ∀ b ∈ P, b ⊆ s := fun b hb => by
    rw [← hcover]
    exact Finset.subset_biUnion_of_mem id hb
  refine ⟨?_, ?_, ?_⟩
  · apply Finset.ext
    intro y
    constructor
    · intro hy
      obtain ⟨b', hb', hyb'⟩ := Finset.mem_biUnion.mp hy
      obtain ⟨b, hb, rfl⟩ := Finset.mem_image.mp hb'
      simp only [id_eq] at hyb'
      obtain ⟨x, hx, rfl⟩ := Finset.mem_image.mp hyb'
      rw [← him]
      exact Finset.mem_image.mpr ⟨x, hbsub b hb hx, rfl⟩
    · intro hy
      rw [← him] at hy
      obtain ⟨x, hx, rfl⟩ := Finset.mem_image.mp hy
      rw [← hcover] at hx
      obtain ⟨b, hb, hxb⟩ := Finset.mem_biUnion.mp hx
      exact Finset.mem_biUnion.mpr ⟨b.image f, Finset.mem_image_of_mem _ hb,
        Finset.mem_image_of_mem f hxb⟩
  · intro b' hb'
    obtain ⟨b, hb, rfl⟩ := Finset.mem_image.mp hb'
    exact (hbne b hb).image f
  · intro b1' hb1' b2' hb2' hne
    obtain ⟨b1, hb1, rfl⟩ := Finset.mem_image.mp hb1'
    obtain ⟨b2, hb2, rfl⟩ := Finset.mem_image.mp hb2'
    have hb12 : b1 ≠ b2 := by
      rintro rfl
      exact hne rfl
    have hdj := hdisj b1 hb1 b2 hb2 hb12
    rw [Finset.disjoint_left]
    intro a ha1 ha2
    obtain ⟨x1, hx1, rfl⟩ := Finset.mem_image.mp ha1
    obtain ⟨x2, hx2, hfx⟩ := Finset.mem_image.mp ha2
    have hx21 : x2 = x1 := hinj x2 (hbsub b2 hb2 hx2) x1 (hbsub b1 hb1 hx1) hfx
    exact (Finset.disjoint_left.mp hdj hx1) (hx21 ▸ hx2)

theorem idPartitions_card_eq_aux {s u : Finset Nat} (f g : Nat → Nat)
    (hfu : ∀ x ∈ s, f x ∈ u) (hgs : ∀ y ∈ u, g y ∈ s)
    (hgf : ∀ x ∈ s, g (f x) = x) (hfg : ∀ y ∈ u, f (g y) = y) :
    (idPartitions s).card = (idPartitions u).card := by
  have hinjf : ∀ x ∈ s, ∀ y ∈ s, f x = f y → x = y := by
    intro x hx y hy heq
    rw [← hgf x hx, ← hgf y hy, heq]
  have hinjg : ∀ x ∈ u, ∀ y ∈ u, g x = g y → x = y := by
    intro x hx y hy heq
    rw [← hfg x hx, ← hfg y hy, heq]
  have himf : s.image f = u := by
    apply Finset.ext
    intro y
    constructor
    · intro hy
      obtain ⟨x, hx, rfl⟩ := Finset.mem_image.mp hy
      exact hfu x hx
    · intro hy
      exact Finset.mem_image.mpr ⟨g y, hgs y hy, hfg y hy⟩
  have himg : u.image g = s := by
    apply Finset.ext
    intro x
    constructor
    · intro hx
      obtain ⟨y, hy, rfl⟩ := Finset.mem_image.mp hx
      exact hgs y hy
    · intro hx
      exact Finset.mem_image.mpr ⟨f x, hfu x hx, hgf x hx⟩
  have hround : ∀ (v : Finset Nat) (P : Finset (Finset Nat)) (h : Nat → Nat)
      (h' : Nat → Nat), (∀ x ∈ v, h' (h x) = x) → P ∈ idPartitions v →
        (P.image (fun b => b.image h)).image (fun b => b.image h') = P := by
    intro v P h h' hh hP
    rw [mem_idPartitions] at hP
    have hbsub : ∀ b ∈ P, b ⊆ v := fun b hb => by
      rw [← hP.1]
      exact Finset.subset_biUnion_of_mem id hb
    rw [Finset.image_image]
    have : P.image ((fun b => b.image h') ∘ (fun b => b.image h)) = P.image id := by
      apply Finset.image_congr
      intro b hb
      show (b.image h).image h' = id b
      rw [Finset.image_image]
      have : b.image (h' ∘ h) = b.image id := by
        apply Finset.image_congr
        intro x hx
        exact hh x (hbsub b hb hx)
      rw [this, Finset.image_id]
      rfl
    rw [this, Finset.image_id]
  refine Finset.card_bij' (fun P _ => P.image (fun b => b.image f))
    (fun Q _ => Q.image (fun b => b.image g)) ?_ ?_ ?_ ?_
  · intro P hP
    exact idPartitions_image hinjf himf P hP
  · intro Q hQ
    exact idPartitions_image hinjg himg Q hQ
  · intro P hP
    exact hround s P f g hgf hP
  · intro Q hQ
    exact hround u Q g f hfg hQ

theorem idPartitions_card_eq {s u : Finset Nat} (h : s.card = u.card) :
    (idPartitions s).card = (idPartitions u).card := by
  have e : {x // x ∈ s} ≃ {y // y ∈ u} :=
    s.equivFin.trans ((finCongr h).trans u.equivFin.symm)
  apply idPartitions_card_eq_aux
    (fun x => if hx : x ∈ s then (e ⟨x, hx⟩ : {y // y ∈ u}).val else x)
    (fun y => if hy : y ∈ u then ((e.symm ⟨y, hy⟩ : {x // x ∈ s}) : Nat) else y)
  · intro x hx
    simp only [dif_pos hx]
    exact (e ⟨x, hx⟩).2
  · intro y hy
    simp only [dif_pos hy]
    exact (e.symm ⟨y, hy⟩).2
  · intro x hx
    simp only [dif_pos hx]
    have h2 : (e ⟨x, hx⟩).val ∈ u := (e ⟨x, hx⟩).2
    simp only [dif_pos h2]
    have heta : (⟨(e ⟨x, hx⟩).val, h2⟩ : {y // y ∈ u}) = e ⟨x, hx⟩ := Subtype.ext rfl
    rw [heta, Equiv.symm_apply_apply]
  · intro y hy
    simp only [dif_pos hy]
    have h2 : ((e.symm ⟨y, hy⟩ : {x // x ∈ s}) : Nat) ∈ s := (e.symm ⟨y, hy⟩).2
    simp only [dif_pos h2]
    have heta : (⟨((e.symm ⟨y, hy⟩ : {x // x ∈ s}) : Nat), h2⟩ : {x // x ∈ s})
        = e.symm ⟨y, hy⟩ := Subtype.ext rfl
    rw [heta, Equiv.apply_symm_apply]

theorem pairwise_disjoint_of_join_perm {c : List (List LoanTask)} {tasks : List LoanTask}
    (hnd : (tasks.map (fun t => t.taskId)).Nodup) (hperm : c.join.Perm tasks) :
    c.Pairwise (fun g₁ g₂ => ∀ t₁ ∈ g₁, ∀ t₂ ∈ g₂, t₁.taskId ≠ t₂.taskId) := by
  have hjnd : (c.join.map (fun t => t.taskId)).Nodup :=
    (hperm.map (fun t => t.taskId)).nodup_iff.mpr hnd
  have h2 : ((c.map (List.map (fun t => t.taskId))).flatten).Nodup := by
    rw [← List.map_flatten]
    exact hjnd
  obtain ⟨-, hpw⟩ := List.nodup_join.mp h2
  have hpw2 := List.pairwise_map.mp hpw
  apply List.Pairwise.imp ?_ hpw2
  intro g₁ g₂ hdisj t₁ ht₁ t₂ ht₂ heq
  exact hdisj (List.mem_map_of_mem _ ht₁) (by rw [heq]; exact List.mem_map_of_mem _ ht₂)

/-- C5: counterexample to "for every n ≥ 0 ... exactly Bell(n)": on the empty
input the generator returns no combinations (length 0), while Bell(0) = 1 — the
empty set has exactly one set partition, the empty partition. -/
theorem generator_bell_zero_counterexample :
    (generateLoanTaskCombinations []).length = 0 ∧ bell 0 = 1 ∧ (0 : Nat) ≠ 1 :=
  ⟨rfl, by decide, by decide⟩

/-- C5 (corrected): on every NON-EMPTY list of n tasks with pairwise-distinct
task ids, `generateLoanTaskCombinations` returns exactly Bell(n) combinations,
pairwise distinct as set partitions, and each combination is a true set
partition of the input: its groups are non-empty, the concatenation of its
groups is a permutation of the input list, and distinct groups share no task.
The claim's "for every n ≥ 0" fails only at n = 0, where the generator returns
no combinations although Bell(0) = 1. -/
theorem generator_bell (tasks : List LoanTask)
    (hnd : (tasks.map (fun t => t.taskId)).Nodup) (hne : tasks ≠ []) :
    (generateLoanTaskCombinations tasks).length = bell tasks.length ∧
    ((generateLoanTaskCombinations tasks).map comboPartition).Nodup ∧
    ∀ c ∈ generateLoanTaskCombinations tasks,
      (∀ g ∈ c, g ≠ []) ∧ c.join.Perm tasks ∧
      c.Pairwise (fun g₁ g₂ => ∀ t₁ ∈ g₁, ∀ t₂ ∈ g₂, t₁.taskId ≠ t₂.taskId) := by
  obtain ⟨hpart, hndP, _⟩ := generator_inv tasks hnd hne
  refine ⟨?_, hndP, ?_⟩
  · rw [generator_length tasks hnd hne, bell]
    apply idPartitions_card_eq
    rw [List.toFinset_card_of_nodup hnd, List.length_map, Finset.card_range]
  · intro c hc
    obtain ⟨hgne, hperm⟩ := hpart c hc
    exact ⟨hgne, hperm, pairwise_disjoint_of_join_perm hnd hperm⟩

/-- Witness for the C5 theorem: at a concrete two-task input the generator
produces exactly Bell(2) = 2 combinations. -/
theorem generator_bell_witness :
    (generateLoanTaskCombinations
        [⟨true, 5, 500, 1000, "W1", 0⟩, ⟨false, 5, 600, 1000, "W2", 1⟩]).length
      = bell 2 :=
  (generator_bell [⟨true, 5, 500, 1000, "W1", 0⟩, ⟨false, 5, 600, 1000, "W2", 1⟩]
    (by decide) (by decide)).1
